import Mathlib

set_option maxRecDepth 100000
set_option maxHeartbeats 4000000

/-!
Verification of the Huffman coding engine in `src/Chapter6-7/huffman-coding.cpp`.

The C++ code is embedded shallowly:

* `Node*` values become the inductive type `NodeP`: either the null pointer or a
  node carrying `character`, `frequency` and the two child pointers.
* `std::unordered_map` members become association lists; `operator[]`-style
  access-with-default-insertion is modelled exactly (`mapIncr`, `mapInsert`,
  and the miss branch of `encodeLoop`).
* The `std::priority_queue` with the `Compare` functor is a min-queue ordered by
  `frequency`.  Its tie order between equal frequencies is unspecified in C++;
  the model fixes the deterministic refinement "first-in first-out among equal
  frequencies" (`sortedInsert` places a new node after existing nodes of equal
  frequency), and the iteration order of `unordered_map` is modelled as
  first-insertion order, which the association lists realise.
* Undefined behaviour is made explicit by `Option`: `buildTree` returns `none`
  exactly when the C++ code would call `pq.top()` on an empty queue, and
  `decode` returns `none` exactly when the C++ code would dereference a null
  pointer (`current->isLeaf()` after stepping to a missing child).
-/

/-- A `Node*` value of the C++ program: either the null pointer, or a node
`Node(c, f, l, r)` with its `character`, `frequency` and two child pointers. -/
inductive NodeP where
  | null
  | node (character : Char) (frequency : Nat) (left : NodeP) (right : NodeP)
deriving DecidableEq

/-- The `frequency` field read by the min-heap comparator `Compare`
(`a->frequency > b->frequency`).  It is only ever read on non-null nodes;
the value on `null` is irrelevant and fixed to `0`. -/
def NodeP.frequency : NodeP → Nat
  | .null => 0
  | .node _ f _ _ => f

/-- `frequencies[c]++` on the `unordered_map<char,int>` member: if `c` is
absent, `operator[]` first inserts `(c, 0)` and the increment makes it `1`;
otherwise the stored count is incremented in place. -/
def mapIncr (c : Char) : List (Char × Nat) → List (Char × Nat)
  | [] => [(c, 1)]
  | (k, v) :: rest => if k = c then (k, v + 1) :: rest else (k, v) :: mapIncr c rest

/-- `codes[k] = v` on the `unordered_map<char,string>` member: overwrite the
entry for `k` if present, otherwise append a new entry. -/
def mapInsert (k : Char) (v : List Char) : List (Char × List Char) → List (Char × List Char)
  | [] => [(k, v)]
  | (k2, v2) :: rest => if k2 = k then (k, v) :: rest else (k2, v2) :: mapInsert k v rest

/-- Lookup of `k` in the code table, distinguishing a hit from a miss
(`unordered_map::operator[]` performs this lookup before deciding whether to
insert a default-constructed value). -/
def mapFind (k : Char) : List (Char × List Char) → Option (List Char)
  | [] => none
  | (k2, v) :: rest => if k2 = k then some v else mapFind k rest

/-- `pq.push(n)` on the min-priority-queue: the model keeps the queue as a list
sorted by ascending `frequency`; a new node is inserted after all nodes of
strictly smaller or equal frequency (first-in first-out among ties). -/
def sortedInsert (n : NodeP) : List NodeP → List NodeP
  | [] => [n]
  | m :: rest => if n.frequency < m.frequency then n :: m :: rest else m :: sortedInsert n rest

/-- One iteration of the merge loop in `buildTree`: pop the two minimum nodes
(`left`, `right`), push `new Node('\0', left->frequency + right->frequency,
left, right)`.  On a queue of fewer than two nodes the loop body does not
run. -/
def mergeStep : List NodeP → List NodeP
  | a :: b :: rest => sortedInsert (.node (Char.ofNat 0) (a.frequency + b.frequency) a b) rest
  | q => q

/-- Iterate `mergeStep` a fixed number of times. -/
def mergeIter : Nat → List NodeP → List NodeP
  | 0, q => q
  | k + 1, q => mergeIter k (mergeStep q)

/-- The `while (pq.size() > 1)` loop of `buildTree`.  Every iteration removes
exactly one element from the queue, so on a queue of `n` elements the loop body
runs exactly `n - 1` times; `mergeStep` is the identity on queues of size at
most one, so running it `n - 1` times is exactly the C++ loop. -/
def mergeLoop (q : List NodeP) : List NodeP :=
  mergeIter (q.length - 1) q

/-- `HuffmanCoding::generateCodes(Node*, string)`: return on null, record
`codes[node->character] = code.empty() ? "0" : code` on a leaf (a node whose
two child pointers are null), otherwise recurse left with `code + "0"` and
then right with `code + "1"`.  The accumulator is the `codes` member the
recursion writes into. -/
def generateCodes : NodeP → List Char → List (Char × List Char) → List (Char × List Char)
  | .null, _, codes => codes
  | .node c _ l r, code, codes =>
    if l = .null ∧ r = .null then
      mapInsert c (if code.isEmpty then ['0'] else code) codes
    else
      generateCodes r (code ++ ['1']) (generateCodes l (code ++ ['0']) codes)

/-- The mutable state of a `HuffmanCoding` object: the `root` pointer and the
`codes` and `frequencies` maps. -/
structure CodecState where
  root : NodeP
  codes : List (Char × List Char)
  frequencies : List (Char × Nat)

/-- A freshly constructed `HuffmanCoding` object: both maps are empty and the
`root` pointer is not yet set (modelled as null). -/
def initState : CodecState := ⟨.null, [], []⟩

/-- `HuffmanCoding::buildTree(string)`.  Step 1 increments `frequencies[c]` for
every character of the text (on top of whatever the member already contains).
Step 2 pushes one leaf per entry of `frequencies` and runs the merge loop.
`root = pq.top()` on an empty queue is undefined behaviour, modelled as `none`;
otherwise the new state has the merged root, the code table obtained by
`generateCodes(root, "")` writing into the existing `codes` member, and the
updated `frequencies`. -/
def buildTree (text : List Char) (st : CodecState) : Option CodecState :=
  let freqs := text.foldl (fun m c => mapIncr c m) st.frequencies
  let pq := freqs.foldl (fun q p => sortedInsert (.node p.1 p.2 .null .null) q) []
  match mergeLoop pq with
  | [] => none
  | r :: _ => some ⟨r, generateCodes r [] st.codes, freqs⟩

/-- The loop of `HuffmanCoding::encode`: `result += codes[c]` for each
character.  On a hit the code is appended to the result; on a miss
`operator[]` inserts `(c, "")` into the `codes` member and appends nothing. -/
def encodeLoop : List Char → List (Char × List Char) → List Char →
    List Char × List (Char × List Char)
  | [], codes, result => (result, codes)
  | c :: rest, codes, result =>
    match mapFind c codes with
    | some code => encodeLoop rest codes (result ++ code)
    | none => encodeLoop rest (mapInsert c [] codes) result

/-- `HuffmanCoding::encode(string)`: returns the produced bitstring and the
state after the call (the `codes` member can be mutated by `operator[]`
misses; `root` and `frequencies` are untouched). -/
def CodecState.encode (st : CodecState) (text : List Char) :
    List Char × CodecState :=
  let p := encodeLoop text st.codes []
  (p.1, ⟨st.root, p.2, st.frequencies⟩)

/-- The loop of `HuffmanCoding::decode`: starting from `current`, each bit
moves to the left child on `'0'` and to the right child on any other
character; if the node moved to is a leaf its character is emitted and the
pointer resets to the root.  Stepping to a null child makes the subsequent
`current->isLeaf()` dereference a null pointer — undefined behaviour, modelled
as `none`.  (A null `current` is likewise undefined behaviour at
`current->left`.) -/
def decodeLoop (root : NodeP) : NodeP → List Char → List Char → Option (List Char)
  | _, [], result => some result
  | .null, _ :: _, _ => none
  | .node _ _ l r, bit :: rest, result =>
    match (if bit = '0' then l else r) with
    | .null => none
    | .node c2 f2 l2 r2 =>
      if l2 = .null ∧ r2 = .null then decodeLoop root root rest (result ++ [c2])
      else decodeLoop root (.node c2 f2 l2 r2) rest result

/-- `HuffmanCoding::decode(string)`: walk the tree from `root`. -/
def CodecState.decode (st : CodecState) (encoded : List Char) : Option (List Char) :=
  decodeLoop st.root st.root encoded []

/-- The number of distinct symbols of a text, read off as the size of the
frequency table the code would build for it from scratch. -/
def distinctCount (text : List Char) : Nat :=
  (text.foldl (fun m c => mapIncr c m) []).length

/-- The frequency table `buildTree` computes for a text when nothing is
carried over from earlier calls (fresh codec). -/
def freshFrequencies (t : List Char) : List (Char × Nat) :=
  t.foldl (fun m c => mapIncr c m) []

/-- The initial priority queue `buildTree` fills for a text on a fresh codec:
one leaf per frequency-table entry. -/
def freshQueue (t : List Char) : List NodeP :=
  (freshFrequencies t).foldl (fun q p => sortedInsert (.node p.1 p.2 .null .null) q) []

/-- Claim C1: the claimed round trip `decode(encode(t)) = t` for every
non-empty `t` fails on the code at `t = "a"`: `buildTree` succeeds and
`encode` yields `"0"`, but `decode` then steps from the leaf root to its null
left child and dereferences it (`current->isLeaf()` on a null pointer,
undefined behaviour, modelled as `none`) instead of returning `"a"`. -/
theorem claim1_roundtrip_single_symbol_UB :
    (buildTree ['a'] initState).map (fun st => st.decode (st.encode ['a']).1) = some none ∧
    (buildTree ['a'] initState).map (fun st => st.decode (st.encode ['a']).1)
      ≠ some (some ['a']) := by
  exact ⟨rfl, by decide⟩

/-- Claim C2: for input `"aaaa"` the code table is `{a ↦ "0"}` and `encode`
produces `"0000"` exactly as claimed, but `decode("0000")` does not return
`"aaaa"`: the root is itself a leaf, so the very first bit moves to its null
left child and `current->isLeaf()` dereferences a null pointer (undefined
behaviour, modelled as `none`). -/
theorem claim2_single_symbol_decode_null_deref :
    (buildTree ['a', 'a', 'a', 'a'] initState).map (fun st => st.codes)
      = some [('a', ['0'])] ∧
    (buildTree ['a', 'a', 'a', 'a'] initState).map
        (fun st => (st.encode ['a', 'a', 'a', 'a']).1)
      = some ['0', '0', '0', '0'] ∧
    (buildTree ['a', 'a', 'a', 'a'] initState).map
        (fun st => st.decode ['0', '0', '0', '0'])
      = some none := by
  exact ⟨rfl, rfl, rfl⟩

/-- Claim C3: `buildTree` on a zero-length input does not report any error:
with an empty frequency table the queue stays empty and the code reaches
`root = pq.top()` on an empty `priority_queue`, which is undefined behaviour
(modelled as `none`), instead of signalling `EmptyInputError`. -/
theorem claim3_empty_input_undefined_top :
    buildTree [] initState = none := rfl

/-- Claim C4: `encode` on a symbol absent from the code table does not fail
with a `LookupError`: after `buildTree("ab")` the symbol `'c'` has no code,
yet `encode("c")` silently returns the empty bitstring, and the unchecked
`codes[c]` lookup inserts the default entry `('c', "")` into the table. -/
theorem claim4_encode_unmapped_symbol_silent :
    (buildTree ['a', 'b'] initState).map (fun st => mapFind 'c' st.codes)
      = some none ∧
    (buildTree ['a', 'b'] initState).map (fun st => (st.encode ['c']).1)
      = some [] ∧
    (buildTree ['a', 'b'] initState).map
        (fun st => mapFind 'c' (st.encode ['c']).2.codes)
      = some (some []) := by
  exact ⟨rfl, rfl, rfl⟩

/-- Claim C5: `decode` on a bitstring that ends mid-tree does not fail with a
`DecodeError`: after `buildTree("aabbbcc")` (codes `b ↦ "0"`, `a ↦ "10"`,
`c ↦ "11"`), `decode("01")` consumes `'0'`, emits `"b"`, then the final `'1'`
leaves the pointer at an internal node — and the loop simply ends, returning
the prefix `"b"` and dropping the partial trailing symbol. -/
theorem claim5_decode_trailing_bits_dropped :
    (buildTree ['a', 'a', 'b', 'b', 'b', 'c', 'c'] initState).map
        (fun st => st.decode ['0', '1'])
      = some (some ['b']) := rfl

/-- Claim C8: `encode` does not always leave the codec state unchanged: after
`buildTree("ab")`, calling `encode("c")` mutates the code table — the
unchecked `codes[c]` inserts `('c', "")` — so the table after the call differs
from the table before it. -/
theorem claim8_encode_mutates_code_table :
    (buildTree ['a', 'b'] initState).map (fun st => (st.encode ['c']).2.codes)
      ≠ (buildTree ['a', 'b'] initState).map (fun st => st.codes) ∧
    (buildTree ['a', 'b'] initState).map (fun st => (st.encode ['c']).2.codes)
      = some [('a', ['0']), ('b', ['1']), ('c', [])] := by
  exact ⟨by decide, rfl⟩

/-- Claim C9, counterexample: state is not replaced wholesale across
`buildTree` calls.  After `buildTree("ab")` followed by `buildTree("cd")` the
frequency table is not the one computed from `"cd"` alone — the `frequencies`
member is never cleared, so the counts of `'a'` and `'b'` survive. -/
theorem claim9_counterexample_state_accumulates :
    ((buildTree ['a', 'b'] initState).bind (fun st => buildTree ['c', 'd'] st)).map
        (fun st => st.frequencies)
      ≠ some (freshFrequencies ['c', 'd']) := by
  decide

/-- What the first `buildTree` call of a fresh codec produces, read off from
the definition: the frequency table computed from the text alone, the head of
the merge loop on the queue built from the text alone, and a code table
generated from the new root into an empty table. -/
theorem buildTree_fresh_spec
    (t : List Char) (st : CodecState) (h : buildTree t initState = some st) :
    st.frequencies = freshFrequencies t ∧
    (∃ rest, mergeLoop (freshQueue t) = st.root :: rest) ∧
    st.codes = generateCodes st.root [] [] := by
  have key : buildTree t initState =
      (match mergeLoop (freshQueue t) with
       | [] => none
       | r :: _ => some ⟨r, generateCodes r [] [], freshFrequencies t⟩) := rfl
  rcases hm : mergeLoop (freshQueue t) with _ | ⟨r, rest⟩
  · rw [key, hm] at h
    cases h
  · rw [key, hm] at h
    injection h with h2
    subst h2
    exact ⟨rfl, ⟨rest, rfl⟩, rfl⟩

/-- Claim C9 (amended): on the first `buildTree` call of a fresh codec the
claim holds — the frequency table is exactly the one computed from `t` alone,
the root is the head of merging the queue built from `t` alone, and the code
table is derived from the current tree (generated into an empty table).
Subsequent calls accumulate instead of replacing state. -/
theorem claim9_amended_first_build_from_text_alone
    (t : List Char) (st : CodecState) (h : buildTree t initState = some st) :
    st.frequencies = freshFrequencies t ∧
    (∃ rest, mergeLoop (freshQueue t) = st.root :: rest) ∧
    st.codes = generateCodes st.root [] [] :=
  buildTree_fresh_spec t st h

/-- Witness for the amended Claim C9 at the concrete input `"ab"`. -/
theorem claim9_amended_witness :
    (buildTree ['a', 'b'] initState).map (fun st => st.frequencies)
        = some (freshFrequencies ['a', 'b']) ∧
    (buildTree ['a', 'b'] initState).map (fun st => st.codes)
        = some [('a', ['0']), ('b', ['1'])] :=
  ⟨by
    rcases hb : buildTree ['a', 'b'] initState with _ | st
    · cases hb
    · have h := claim9_amended_first_build_from_text_alone ['a', 'b'] st hb
      simp [h.1],
   rfl⟩

/-- Normalisation of a decode input character: the branch
`current = (bit == '0') ? current->left : current->right` only distinguishes
`'0'` from everything else, so every non-`'0'` character acts like `'1'`. -/
def normBit (c : Char) : Char :=
  if c = '0' then '0' else '1'

/-- The decode loop only looks at each character through `normBit`. -/
theorem decodeLoop_normBit (root : NodeP) :
    ∀ (s : List Char) (cur : NodeP) (res : List Char),
      decodeLoop root cur s res = decodeLoop root cur (s.map normBit) res := by
  intro s
  induction s with
  | nil => intro cur res; rfl
  | cons bit rest ih =>
    intro cur res
    cases cur with
    | null => rfl
    | node c f l r =>
      show decodeLoop root (.node c f l r) (bit :: rest) res
         = decodeLoop root (.node c f l r) (normBit bit :: rest.map normBit) res
      simp only [decodeLoop]
      rw [show (if normBit bit = '0' then l else r) = (if bit = '0' then l else r) from by
        by_cases hb : bit = '0' <;> simp [normBit, hb]]
      cases hn : (if bit = '0' then l else r) with
      | null => rfl
      | node c2 f2 l2 r2 =>
        by_cases hleaf : l2 = NodeP.null ∧ r2 = NodeP.null
        · simp only [if_pos hleaf]
          exact ih root (res ++ [c2])
        · simp only [if_neg hleaf]
          exact ih (.node c2 f2 l2 r2) res

/-- Claim C10: `decode` treats every character other than `'0'` as a move to
the right child: any two input strings that agree after replacing each
non-`'0'` character by `'1'` decode identically, against any tree. -/
theorem claim10_decode_general_chars (st : CodecState) (s1 s2 : List Char)
    (h : s1.map normBit = s2.map normBit) :
    st.decode s1 = st.decode s2 := by
  unfold CodecState.decode
  rw [decodeLoop_normBit st.root s1 st.root [], h, ← decodeLoop_normBit]

/-- Witness for claim C10: `"x0"` and `"10"` agree after normalisation, and
both decode to `"b"` against a two-leaf tree. -/
theorem claim10_witness :
    (['x', '0'] : List Char).map normBit = ['1', '0'].map normBit ∧
    (⟨.node 'p' 3 (.node 'a' 1 .null .null) (.node 'b' 2 .null .null), [], []⟩ :
        CodecState).decode ['x', '0']
      = (⟨.node 'p' 3 (.node 'a' 1 .null .null) (.node 'b' 2 .null .null), [], []⟩ :
        CodecState).decode ['1', '0'] :=
  ⟨by decide,
   claim10_decode_general_chars
     ⟨.node 'p' 3 (.node 'a' 1 .null .null) (.node 'b' 2 .null .null), [], []⟩
     ['x', '0'] ['1', '0'] (by decide)⟩

/-- Boolean "is a prefix of" test on bitstrings. -/
def isPrefB : List Char → List Char → Bool
  | [], _ => true
  | _ :: _, [] => false
  | a :: s, b :: t => if a = b then isPrefB s t else false

/-- `isPrefB s t` holds exactly when `t` extends `s`. -/
theorem isPrefB_iff_append (s : List Char) :
    ∀ t, isPrefB s t = true ↔ ∃ u, t = s ++ u := by
  induction s with
  | nil =>
    intro t
    simp [isPrefB]
  | cons a s ih =>
    intro t
    cases t with
    | nil =>
      constructor
      · intro h
        exact absurd h (by simp [isPrefB])
      · rintro ⟨u, hu⟩
        exact absurd hu (by simp)
    | cons b t =>
      by_cases hab : a = b
      · subst hab
        constructor
        · intro h
          simp only [isPrefB, if_pos rfl] at h
          rcases (ih t).mp h with ⟨u, rfl⟩
          exact ⟨u, rfl⟩
        · rintro ⟨u, hu⟩
          rw [List.cons_append] at hu
          injection hu with h1 h2
          subst h2
          simp only [isPrefB, if_pos rfl]
          exact (ih _).mpr ⟨u, rfl⟩
      · constructor
        · intro h
          simp only [isPrefB, if_neg hab] at h
          exact absurd h (by decide)
        · rintro ⟨u, hu⟩
          rw [List.cons_append] at hu
          injection hu with h1 h2
          exact absurd h1.symm hab

/-- A code table is prefix-free when no code is a proper prefix of another:
whenever one code is a prefix of another, the two are equal. -/
def PrefFree (table : List (Char × List Char)) : Prop :=
  ∀ p ∈ table, ∀ q ∈ table, isPrefB p.2 q.2 = true → p.2 = q.2

/-- The bitstrings `generateCodes` records for the leaves below a node, given
the accumulated path `p`. -/
def leafCodes : NodeP → List Char → List (List Char)
  | .null, _ => []
  | .node _ _ l r, p =>
    if l = .null ∧ r = .null then [if p.isEmpty then ['0'] else p]
    else leafCodes l (p ++ ['0']) ++ leafCodes r (p ++ ['1'])

/-- Membership through a `codes[k] = v` write. -/
theorem mem_mapInsert (x : Char × List Char) (k : Char) (v : List Char) :
    ∀ m, x ∈ mapInsert k v m → x = (k, v) ∨ x ∈ m := by
  intro m
  induction m with
  | nil =>
    intro h
    simp [mapInsert] at h
    exact Or.inl h
  | cons e rest ih =>
    rcases e with ⟨k2, v2⟩
    simp only [mapInsert]
    by_cases he : k2 = k
    · rw [if_pos he]
      intro h
      rcases List.mem_cons.mp h with h1 | h1
      · exact Or.inl h1
      · exact Or.inr (List.mem_cons_of_mem _ h1)
    · rw [if_neg he]
      intro h
      rcases List.mem_cons.mp h with h1 | h1
      · subst h1
        exact Or.inr (List.mem_cons_self _ _)
      · rcases ih h1 with h2 | h2
        · exact Or.inl h2
        · exact Or.inr (List.mem_cons_of_mem _ h2)

/-- Prefixing with a longer path is stronger: if `p ++ q` is a prefix of `c`
then so is `p`. -/
theorem isPrefB_of_append_left (p q c : List Char)
    (h : isPrefB (p ++ q) c = true) : isPrefB p c = true := by
  rcases (isPrefB_iff_append _ _).mp h with ⟨u, rfl⟩
  exact (isPrefB_iff_append _ _).mpr ⟨q ++ u, by simp⟩

/-- Every entry produced by `generateCodes` is either a leaf code of the
traversed tree or was already in the accumulator table. -/
theorem mem_generateCodes (x : Char × List Char) :
    ∀ (n : NodeP) (p : List Char) (acc : List (Char × List Char)),
      x ∈ generateCodes n p acc → x.2 ∈ leafCodes n p ∨ x ∈ acc := by
  intro n
  induction n with
  | null =>
    intro p acc h
    exact Or.inr h
  | node c f l r ihl ihr =>
    intro p acc h
    by_cases hleaf : l = NodeP.null ∧ r = NodeP.null
    · simp only [generateCodes, if_pos hleaf] at h
      rcases mem_mapInsert x c _ acc h with h1 | h1
      · left
        rw [h1]
        simp [leafCodes, if_pos hleaf]
      · exact Or.inr h1
    · simp only [generateCodes, if_neg hleaf] at h
      rcases ihr _ _ h with h1 | h1
      · left
        simp only [leafCodes, if_neg hleaf, List.mem_append]
        exact Or.inr h1
      · rcases ihl _ _ h1 with h2 | h2
        · left
          simp only [leafCodes, if_neg hleaf, List.mem_append]
          exact Or.inl h2
        · exact Or.inr h2

/-- Every leaf code below a node extends the accumulated path. -/
theorem leafCodes_extend :
    ∀ (n : NodeP) (p c : List Char), c ∈ leafCodes n p → isPrefB p c = true := by
  intro n
  induction n with
  | null =>
    intro p c h
    simp [leafCodes] at h
  | node ch f l r ihl ihr =>
    intro p c h
    by_cases hleaf : l = NodeP.null ∧ r = NodeP.null
    · simp only [leafCodes, if_pos hleaf, List.mem_singleton] at h
      subst h
      cases p with
      | nil => simp [isPrefB]
      | cons a p2 =>
        have h0 : isPrefB (a :: p2) (a :: p2) = true :=
          (isPrefB_iff_append _ _).mpr ⟨[], by simp⟩
        simpa using h0
    · simp only [leafCodes, if_neg hleaf, List.mem_append] at h
      rcases h with h | h
      · exact isPrefB_of_append_left p ['0'] c (ihl _ _ h)
      · exact isPrefB_of_append_left p ['1'] c (ihr _ _ h)

/-- Two leaf codes below the same node are never in a proper prefix relation:
if one is a prefix of the other they are the same code. -/
theorem leafCodes_no_nesting :
    ∀ (n : NodeP) (p c1 c2 : List Char), c1 ∈ leafCodes n p → c2 ∈ leafCodes n p →
      isPrefB c1 c2 = true → c1 = c2 := by
  intro n
  induction n with
  | null =>
    intro p c1 c2 h1
    simp [leafCodes] at h1
  | node ch f l r ihl ihr =>
    intro p c1 c2 h1 h2 h12
    by_cases hleaf : l = NodeP.null ∧ r = NodeP.null
    · simp only [leafCodes, if_pos hleaf, List.mem_singleton] at h1 h2
      rw [h1, h2]
    · simp only [leafCodes, if_neg hleaf, List.mem_append] at h1 h2
      rcases h1 with h1 | h1 <;> rcases h2 with h2 | h2
      · exact ihl _ _ _ h1 h2 h12
      · exfalso
        rcases (isPrefB_iff_append _ _).mp (leafCodes_extend l _ c1 h1) with ⟨u1, hc1⟩
        rcases (isPrefB_iff_append _ _).mp (leafCodes_extend r _ c2 h2) with ⟨u2, hc2⟩
        rcases (isPrefB_iff_append _ _).mp h12 with ⟨v, hv⟩
        rw [hc2, hc1] at hv
        have hv2 : p ++ '1' :: u2 = p ++ '0' :: (u1 ++ v) := by simpa using hv
        have h3 := List.append_cancel_left hv2
        injection h3 with h4 _
        exact absurd h4 (by decide)
      · exfalso
        rcases (isPrefB_iff_append _ _).mp (leafCodes_extend r _ c1 h1) with ⟨u1, hc1⟩
        rcases (isPrefB_iff_append _ _).mp (leafCodes_extend l _ c2 h2) with ⟨u2, hc2⟩
        rcases (isPrefB_iff_append _ _).mp h12 with ⟨v, hv⟩
        rw [hc2, hc1] at hv
        have hv2 : p ++ '0' :: u2 = p ++ '1' :: (u1 ++ v) := by simpa using hv
        have h3 := List.append_cancel_left hv2
        injection h3 with h4 _
        exact absurd h4 (by decide)
      · exact ihr _ _ _ h1 h2 h12

/-- Claim C6: for every non-empty input, the code table `buildTree` produces
on a fresh codec is prefix-free — no code in the table is a proper prefix of
another code in the table. -/
theorem claim6_code_table_never_nests (t : List Char) (st : CodecState)
    (hne : t ≠ []) (h : buildTree t initState = some st) :
    PrefFree st.codes := by
  have hcodes := (buildTree_fresh_spec t st h).2.2
  intro p hp q hq hpq
  rw [hcodes] at hp hq
  rcases mem_generateCodes p st.root [] [] hp with h1 | h1
  · rcases mem_generateCodes q st.root [] [] hq with h2 | h2
    · exact leafCodes_no_nesting st.root [] p.2 q.2 h1 h2 hpq
    · simp at h2
  · simp at h1

/-- Witness for Claim C6 at the concrete input `"ab"`. -/
theorem claim6_witness :
    (['a', 'b'] : List Char) ≠ [] ∧ PrefFree [('a', ['0']), ('b', ['1'])] :=
  ⟨by decide,
   claim6_code_table_never_nests ['a', 'b']
     ⟨.node (Char.ofNat 0) 2 (.node 'a' 1 .null .null) (.node 'b' 1 .null .null),
      [('a', ['0']), ('b', ['1'])], [('a', 1), ('b', 1)]⟩
     (by decide) rfl⟩

/-- Sorted insertion into an ascending list of weights, with the same tie rule
as `sortedInsert` (a new weight goes after existing equal weights). -/
def wIns (x : Nat) : List Nat → List Nat
  | [] => [x]
  | y :: r => if x < y then x :: y :: r else y :: wIns x r

/-- `wIns` adds one element. -/
theorem wIns_length (x : Nat) : ∀ l : List Nat, (wIns x l).length = l.length + 1 := by
  intro l
  induction l with
  | nil => rfl
  | cons y r ih =>
    by_cases h : x < y
    · simp [wIns, if_pos h]
    · simp [wIns, if_neg h, ih]

/-- `wIns` inserts: the result is a permutation of consing. -/
theorem wIns_perm (x : Nat) : ∀ l : List Nat, List.Perm (wIns x l) (x :: l) := by
  intro l
  induction l with
  | nil => rfl
  | cons y r ih =>
    by_cases h : x < y
    · simp [wIns, if_pos h]
    · simp only [wIns, if_neg h]
      exact (ih.cons y).trans (List.Perm.swap x y r)

/-- `wIns` preserves ascending sortedness. -/
theorem wIns_sorted (x : Nat) :
    ∀ l : List Nat, l.Sorted (· ≤ ·) → (wIns x l).Sorted (· ≤ ·) := by
  intro l
  induction l with
  | nil =>
    intro _
    simp [wIns]
  | cons y r ih =>
    intro hs
    rcases List.sorted_cons.mp hs with ⟨hy, hr⟩
    by_cases h : x < y
    · rw [wIns, if_pos h]
      exact List.sorted_cons.mpr ⟨by
        intro b hb
        rcases List.mem_cons.mp hb with rfl | hb
        · exact Nat.le_of_lt h
        · exact Nat.le_trans (Nat.le_of_lt h) (hy b hb), hs⟩
    · rw [wIns, if_neg h]
      refine List.sorted_cons.mpr ⟨?_, ih hr⟩
      intro b hb
      rcases List.mem_cons.mp ((wIns_perm x r).mem_iff.mp hb) with rfl | hb2
      · exact Nat.le_of_not_lt h
      · exact hy b hb2

/-- Insertion sort of weights, ascending. -/
def sortAsc : List Nat → List Nat
  | [] => []
  | x :: r => wIns x (sortAsc r)

/-- `sortAsc` permutes its input. -/
theorem sortAsc_perm : ∀ l : List Nat, List.Perm (sortAsc l) l := by
  intro l
  induction l with
  | nil => rfl
  | cons x r ih => exact (wIns_perm x (sortAsc r)).trans (ih.cons x)

/-- `sortAsc` sorts ascending. -/
theorem sortAsc_sorted : ∀ l : List Nat, (sortAsc l).Sorted (· ≤ ·) := by
  intro l
  induction l with
  | nil => simp [sortAsc]
  | cons x r ih => exact wIns_sorted x (sortAsc r) ih

/-- Sorted insertion into a descending list (ties go after, as in `wIns`). -/
def dIns (x : Nat) : List Nat → List Nat
  | [] => [x]
  | y :: r => if y < x then x :: y :: r else y :: dIns x r

/-- `dIns` inserts: the result is a permutation of consing. -/
theorem dIns_perm (x : Nat) : ∀ l : List Nat, List.Perm (dIns x l) (x :: l) := by
  intro l
  induction l with
  | nil => rfl
  | cons y r ih =>
    by_cases h : y < x
    · simp [dIns, if_pos h]
    · simp only [dIns, if_neg h]
      exact (ih.cons y).trans (List.Perm.swap x y r)

/-- `dIns` preserves descending sortedness. -/
theorem dIns_sorted (x : Nat) :
    ∀ l : List Nat, l.Sorted (· ≥ ·) → (dIns x l).Sorted (· ≥ ·) := by
  intro l
  induction l with
  | nil =>
    intro _
    simp [dIns]
  | cons y r ih =>
    intro hs
    rcases List.sorted_cons.mp hs with ⟨hy, hr⟩
    by_cases h : y < x
    · rw [dIns, if_pos h]
      exact List.sorted_cons.mpr ⟨by
        intro b hb
        rcases List.mem_cons.mp hb with rfl | hb
        · exact Nat.le_of_lt h
        · exact Nat.le_trans (hy b hb) (Nat.le_of_lt h), hs⟩
    · rw [dIns, if_neg h]
      refine List.sorted_cons.mpr ⟨?_, ih hr⟩
      intro b hb
      rcases List.mem_cons.mp ((dIns_perm x r).mem_iff.mp hb) with rfl | hb2
      · exact Nat.le_of_not_lt h
      · exact hy b hb2

/-- Insertion sort of depths, descending. -/
def sortDesc : List Nat → List Nat
  | [] => []
  | x :: r => dIns x (sortDesc r)

/-- `sortDesc` permutes its input. -/
theorem sortDesc_perm : ∀ l : List Nat, List.Perm (sortDesc l) l := by
  intro l
  induction l with
  | nil => rfl
  | cons x r ih => exact (dIns_perm x (sortDesc r)).trans (ih.cons x)

/-- `sortDesc` sorts descending. -/
theorem sortDesc_sorted : ∀ l : List Nat, (sortDesc l).Sorted (· ≥ ·) := by
  intro l
  induction l with
  | nil => simp [sortDesc]
  | cons x r ih => exact dIns_sorted x (sortDesc r) ih

/-- The cost accumulated by the greedy merge on a list of weights: repeatedly
replace the first two weights by their sum (re-inserted in order), adding the
sum each time.  On an ascending list this is exactly what the C++ merge loop
spends, since the first two elements are the two minima. -/
def wcost : List Nat → Nat
  | [] => 0
  | [_] => 0
  | a :: b :: rest => a + b + wcost (wIns (a + b) rest)
termination_by l => l.length
decreasing_by simp [wIns_length]

/-- Truncating dot product of two lists. -/
def dot : List Nat → List Nat → Nat
  | a :: s, b :: t => a * b + dot s t
  | _, _ => 0

/-- Sum of the products of a list of (weight, depth) pairs. -/
def psum (ps : List (Nat × Nat)) : Nat :=
  (ps.map (fun p => p.1 * p.2)).sum

/-- The Kraft sum of a list of depths, scaled by `2 ^ D`. -/
def kraft (D : Nat) (ds : List Nat) : Nat :=
  (ds.map (fun d => 2 ^ (D - d))).sum


/-- An ascending sorted list is determined by its multiset: sorting a
permutation of `x :: m` whose tail bounds `x` from below puts `x` first. -/
theorem sortAsc_cons_eq {x : Nat} {l m : List Nat} (hperm : List.Perm l (x :: m))
    (hmin : ∀ y ∈ m, x ≤ y) : sortAsc l = x :: sortAsc m := by
  have h1 : (sortAsc l).Sorted (· ≤ ·) := sortAsc_sorted l
  have h2 : (x :: sortAsc m).Sorted (· ≤ ·) :=
    List.sorted_cons.mpr
      ⟨fun b hb => hmin b ((sortAsc_perm m).mem_iff.mp hb), sortAsc_sorted m⟩
  have hp : List.Perm (sortAsc l) (x :: sortAsc m) :=
    (sortAsc_perm l).trans (hperm.trans (List.Perm.cons x (sortAsc_perm m).symm))
  exact List.eq_of_perm_of_sorted hp h1 h2

/-- Descending counterpart of `sortAsc_cons_eq`. -/
theorem sortDesc_cons_eq {x : Nat} {l m : List Nat} (hperm : List.Perm l (x :: m))
    (hmax : ∀ y ∈ m, y ≤ x) : sortDesc l = x :: sortDesc m := by
  haveI : IsAntisymm Nat (· ≥ ·) := ⟨fun a b h1 h2 => Nat.le_antisymm h2 h1⟩
  have h1 : (sortDesc l).Sorted (· ≥ ·) := sortDesc_sorted l
  have h2 : (x :: sortDesc m).Sorted (· ≥ ·) :=
    List.sorted_cons.mpr
      ⟨fun b hb => hmax b ((sortDesc_perm m).mem_iff.mp hb), sortDesc_sorted m⟩
  have hp : List.Perm (sortDesc l) (x :: sortDesc m) :=
    (sortDesc_perm l).trans (hperm.trans (List.Perm.cons x (sortDesc_perm m).symm))
  exact List.eq_of_perm_of_sorted hp h1 h2

/-- The head of `sortAsc` is a least element of the list. -/
theorem sortAsc_head_min (l : List Nat) (x : Nat) (A : List Nat)
    (h : sortAsc l = x :: A) : x ∈ l ∧ ∀ y ∈ l, x ≤ y := by
  have hs : (x :: A).Sorted (· ≤ ·) := h ▸ sortAsc_sorted l
  rcases List.sorted_cons.mp hs with ⟨hx, _⟩
  constructor
  · exact (sortAsc_perm l).mem_iff.mp (by rw [h]; exact List.mem_cons_self _ _)
  · intro y hy
    have hy2 : y ∈ x :: A := by rw [← h]; exact ((sortAsc_perm l).mem_iff).mpr hy
    rcases List.mem_cons.mp hy2 with rfl | hy3
    · exact Nat.le_refl y
    · exact hx y hy3

/-- The head of `sortDesc` is a greatest element of the list. -/
theorem sortDesc_head_max (l : List Nat) (x : Nat) (A : List Nat)
    (h : sortDesc l = x :: A) : x ∈ l ∧ ∀ y ∈ l, y ≤ x := by
  have hs : (x :: A).Sorted (· ≥ ·) := h ▸ sortDesc_sorted l
  rcases List.sorted_cons.mp hs with ⟨hx, _⟩
  constructor
  · exact (sortDesc_perm l).mem_iff.mp (by rw [h]; exact List.mem_cons_self _ _)
  · intro y hy
    have hy2 : y ∈ x :: A := by rw [← h]; exact ((sortDesc_perm l).mem_iff).mpr hy
    rcases List.mem_cons.mp hy2 with rfl | hy3
    · exact Nat.le_refl y
    · exact hx y hy3

/-- The exchange inequality: pairing the smaller weight with the larger depth
wastes nothing — `a*d + w*e ≤ a*e + w*d` when `a ≤ w` and `e ≤ d`. -/
theorem swap_mul_le {a w d e : Nat} (haw : a ≤ w) (hed : e ≤ d) :
    a * d + w * e ≤ a * e + w * d := by
  rcases Nat.le.dest haw with ⟨x, rfl⟩
  rcases Nat.le.dest hed with ⟨y, rfl⟩
  calc a * (e + y) + (a + x) * e
      = a * e + (a * e + a * y + x * e) := by ring
    _ ≤ a * e + (a * e + a * y + x * e + x * y) := by omega
    _ = a * e + (a + x) * (e + y) := by ring

/-- `psum` is invariant under permutation. -/
theorem psum_perm {ps qs : List (Nat × Nat)} (h : List.Perm ps qs) :
    psum ps = psum qs := by
  simpa [psum] using (h.map (fun p => p.1 * p.2)).sum_eq

/-- The rearrangement bound: pairing the weights sorted ascending with the
depths sorted descending minimises the sum of products over all pairings of
the same weights with the same depths. -/
theorem rearrange_le (N : Nat) : ∀ (ps : List (Nat × Nat)), ps.length ≤ N →
    dot (sortAsc (ps.map Prod.fst)) (sortDesc (ps.map Prod.snd)) ≤ psum ps := by
  induction N with
  | zero =>
    intro ps h
    have hnil : ps = [] := List.length_eq_zero.mp (Nat.le_zero.mp h)
    subst hnil
    exact Nat.zero_le _
  | succ N ih =>
    intro ps hlen
    rcases hA : sortAsc (ps.map Prod.fst) with _ | ⟨a0, A2⟩
    · exact Nat.zero_le _
    rcases hD : sortDesc (ps.map Prod.snd) with _ | ⟨d0, D2⟩
    · exact Nat.zero_le _
    rcases sortAsc_head_min _ _ _ hA with ⟨ha0mem, ha0min⟩
    rcases sortDesc_head_max _ _ _ hD with ⟨hd0mem, hd0max⟩
    by_cases hmem : ((a0, d0) : Nat × Nat) ∈ ps
    · obtain ⟨s1, t1, hsplit⟩ := List.append_of_mem hmem
      have hperm : List.Perm ps ((a0, d0) :: (s1 ++ t1)) := by
        rw [hsplit]
        exact List.perm_middle
      have hsub : ∀ p ∈ s1 ++ t1, p ∈ ps := by
        intro p hp
        rw [hsplit]
        rcases List.mem_append.mp hp with h | h
        · exact List.mem_append.mpr (Or.inl h)
        · exact List.mem_append.mpr (Or.inr (List.mem_cons_of_mem _ h))
      have hAeq : sortAsc (ps.map Prod.fst)
          = a0 :: sortAsc ((s1 ++ t1).map Prod.fst) := by
        apply sortAsc_cons_eq
        · simpa using hperm.map Prod.fst
        · intro y hy
          rcases List.mem_map.mp hy with ⟨p, hp, rfl⟩
          exact ha0min _ (List.mem_map_of_mem _ (hsub p hp))
      have hDeq : sortDesc (ps.map Prod.snd)
          = d0 :: sortDesc ((s1 ++ t1).map Prod.snd) := by
        apply sortDesc_cons_eq
        · simpa using hperm.map Prod.snd
        · intro y hy
          rcases List.mem_map.mp hy with ⟨p, hp, rfl⟩
          exact hd0max _ (List.mem_map_of_mem _ (hsub p hp))
      have hA2 : A2 = sortAsc ((s1 ++ t1).map Prod.fst) := by
        have h2 := hA.symm.trans hAeq
        injection h2 with _ h3
      have hD2 : D2 = sortDesc ((s1 ++ t1).map Prod.snd) := by
        have h2 := hD.symm.trans hDeq
        injection h2 with _ h3
      subst hA2
      subst hD2
      have hlen2 : (s1 ++ t1).length ≤ N := by
        have e1 := congrArg List.length hsplit
        simp [List.length_append] at e1 ⊢
        omega
      calc dot (a0 :: sortAsc ((s1 ++ t1).map Prod.fst))
               (d0 :: sortDesc ((s1 ++ t1).map Prod.snd))
          = a0 * d0 + dot (sortAsc ((s1 ++ t1).map Prod.fst))
              (sortDesc ((s1 ++ t1).map Prod.snd)) := rfl
        _ ≤ a0 * d0 + psum (s1 ++ t1) := Nat.add_le_add_left (ih _ hlen2) _
        _ = psum ((a0, d0) :: (s1 ++ t1)) := by simp [psum]
        _ = psum ps := (psum_perm hperm).symm
    · obtain ⟨pa, hpa, hpa1⟩ := List.mem_map.mp ha0mem
      obtain ⟨pb, hpb, hpb1⟩ := List.mem_map.mp hd0mem
      have hnepair : pb ≠ pa := by
        intro he
        apply hmem
        subst he
        have hpaeq : pb = (a0, d0) := by
          rcases pb with ⟨x, y⟩
          simp only at hpa1 hpb1
          rw [hpa1, hpb1]
        rw [← hpaeq]
        exact hpa
      obtain ⟨s1, t1, hsplit1⟩ := List.append_of_mem hpa
      have hpb_in : pb ∈ s1 ++ t1 := by
        have h1 : pb ∈ ps := hpb
        rw [hsplit1] at h1
        rcases List.mem_append.mp h1 with h | h
        · exact List.mem_append.mpr (Or.inl h)
        · rcases List.mem_cons.mp h with he | h
          · exact absurd he hnepair
          · exact List.mem_append.mpr (Or.inr h)
      obtain ⟨s2, t2, hsplit2⟩ := List.append_of_mem hpb_in
      have hperm3 : List.Perm ps (pa :: pb :: (s2 ++ t2)) := by
        rw [hsplit1]
        refine List.perm_middle.trans (List.Perm.cons pa ?_)
        rw [hsplit2]
        exact List.perm_middle
      have hsub2 : ∀ p ∈ s2 ++ t2, p ∈ ps := by
        intro p hp
        have h1 : p ∈ s1 ++ t1 := by
          rw [hsplit2]
          rcases List.mem_append.mp hp with h | h
          · exact List.mem_append.mpr (Or.inl h)
          · exact List.mem_append.mpr (Or.inr (List.mem_cons_of_mem _ h))
        rw [hsplit1]
        rcases List.mem_append.mp h1 with h | h
        · exact List.mem_append.mpr (Or.inl h)
        · exact List.mem_append.mpr (Or.inr (List.mem_cons_of_mem _ h))
      have hle1 : a0 ≤ pb.1 := ha0min _ (List.mem_map_of_mem _ hpb)
      have hle2 : pa.2 ≤ d0 := hd0max _ (List.mem_map_of_mem _ hpa)
      have hAeq : sortAsc (ps.map Prod.fst)
          = a0 :: sortAsc (pb.1 :: (s2 ++ t2).map Prod.fst) := by
        apply sortAsc_cons_eq
        · have h1 := hperm3.map Prod.fst
          simp only [List.map_cons] at h1
          rw [hpa1] at h1
          exact h1
        · intro y hy
          rcases List.mem_cons.mp hy with rfl | hy2
          · exact hle1
          · rcases List.mem_map.mp hy2 with ⟨p, hp, rfl⟩
            exact ha0min _ (List.mem_map_of_mem _ (hsub2 p hp))
      have hDeq : sortDesc (ps.map Prod.snd)
          = d0 :: sortDesc (pa.2 :: (s2 ++ t2).map Prod.snd) := by
        apply sortDesc_cons_eq
        · have h1 := hperm3.map Prod.snd
          simp only [List.map_cons] at h1
          rw [hpb1] at h1
          exact h1.trans (List.Perm.swap d0 pa.2 _)
        · intro y hy
          rcases List.mem_cons.mp hy with rfl | hy2
          · exact hle2
          · rcases List.mem_map.mp hy2 with ⟨p, hp, rfl⟩
            exact hd0max _ (List.mem_map_of_mem _ (hsub2 p hp))
      have hA2 : A2 = sortAsc (pb.1 :: (s2 ++ t2).map Prod.fst) := by
        have h2 := hA.symm.trans hAeq
        injection h2 with _ h3
      have hD2 : D2 = sortDesc (pa.2 :: (s2 ++ t2).map Prod.snd) := by
        have h2 := hD.symm.trans hDeq
        injection h2 with _ h3
      subst hA2
      subst hD2
      have hlen2 : ((pb.1, pa.2) :: (s2 ++ t2)).length ≤ N := by
        have e1 := congrArg List.length hsplit1
        have e2 := congrArg List.length hsplit2
        simp [List.length_append] at e1 e2 ⊢
        omega
      calc dot (a0 :: sortAsc (pb.1 :: (s2 ++ t2).map Prod.fst))
               (d0 :: sortDesc (pa.2 :: (s2 ++ t2).map Prod.snd))
          = a0 * d0 + dot (sortAsc (((pb.1, pa.2) :: (s2 ++ t2)).map Prod.fst))
              (sortDesc (((pb.1, pa.2) :: (s2 ++ t2)).map Prod.snd)) := rfl
        _ ≤ a0 * d0 + psum ((pb.1, pa.2) :: (s2 ++ t2)) :=
            Nat.add_le_add_left (ih _ hlen2) _
        _ = a0 * d0 + pb.1 * pa.2 + psum (s2 ++ t2) := by
            simp [psum]
            ring
        _ ≤ a0 * pa.2 + pb.1 * d0 + psum (s2 ++ t2) := by
            have hsw := swap_mul_le hle1 hle2
            omega
        _ = psum (pa :: pb :: (s2 ++ t2)) := by
            simp [psum, ← hpa1, ← hpb1]
            ring
        _ = psum ps := (psum_perm hperm3).symm

/-- `kraft` is invariant under permutation of the depth list. -/
theorem kraft_perm {D : Nat} {ds es : List Nat} (h : List.Perm ds es) :
    kraft D ds = kraft D es := by
  simpa [kraft] using (h.map (fun d => 2 ^ (D - d))).sum_eq

/-- Scaling a Kraft sum whose depths are all at most `d1`. -/
theorem kraft_scale (D d1 : Nat) (hD : d1 ≤ D) :
    ∀ ds : List Nat, (∀ d ∈ ds, d ≤ d1) →
      kraft D ds = 2 ^ (D - d1) * (ds.map (fun d => 2 ^ (d1 - d))).sum := by
  intro ds
  induction ds with
  | nil => intro _; simp [kraft]
  | cons d rest ih =>
    intro hb
    have hd : d ≤ d1 := hb d (List.mem_cons_self _ _)
    have hsplit : D - d = (D - d1) + (d1 - d) := by omega
    simp only [kraft, List.map_cons, List.sum_cons] at *
    rw [hsplit, pow_add, ih (fun x hx => hb x (List.mem_cons_of_mem _ hx))]
    ring

/-- One tightening step: if the unique deepest depth `d1` exceeds the next
depth `d2` and the Kraft sum fits, then lowering `d1` by one still fits.  The
scaled sum is odd (the `d1` term contributes `1`, all others are even), and an
odd number at most the even number `2 ^ d1` is strictly below it. -/
theorem kraft_tighten_one (D d1 d2 : Nat) (ds : List Nat)
    (hd12 : d2 < d1) (hD : d1 ≤ D) (hall : ∀ d ∈ ds, d ≤ d2)
    (hk : kraft D (d1 :: d2 :: ds) ≤ 2 ^ D) :
    kraft D ((d1 - 1) :: d2 :: ds) ≤ 2 ^ D := by
  have hb1 : ∀ d ∈ d1 :: d2 :: ds, d ≤ d1 := by
    intro d hd
    rcases List.mem_cons.mp hd with rfl | hd
    · exact Nat.le_refl d
    rcases List.mem_cons.mp hd with rfl | hd
    · omega
    · have := hall d hd
      omega
  have hb2 : ∀ d ∈ (d1 - 1) :: d2 :: ds, d ≤ d1 := by
    intro d hd
    rcases List.mem_cons.mp hd with rfl | hd
    · omega
    · exact hb1 d (List.mem_cons_of_mem _ hd)
  have hscale1 := kraft_scale D d1 hD (d1 :: d2 :: ds) hb1
  have hscale2 := kraft_scale D d1 hD ((d1 - 1) :: d2 :: ds) hb2
  set R := ((d2 :: ds).map (fun d => 2 ^ (d1 - d))).sum with hR
  have hT1 : ((d1 :: d2 :: ds).map (fun d => 2 ^ (d1 - d))).sum = 1 + R := by
    simp [hR, Nat.sub_self]
  have hT2 : (((d1 - 1) :: d2 :: ds).map (fun d => 2 ^ (d1 - d))).sum = 2 + R := by
    have : d1 - (d1 - 1) = 1 := by omega
    simp [hR, this]
  have heven : 2 ∣ R := by
    apply List.dvd_sum
    intro x hx
    rcases List.mem_map.mp hx with ⟨d, hd, rfl⟩
    have hdle : d ≤ d2 := by
      rcases List.mem_cons.mp hd with rfl | hd
      · exact Nat.le_refl d
      · exact hall d hd
    exact dvd_pow_self 2 (by omega : d1 - d ≠ 0)
  have hpos : 0 < 2 ^ (D - d1) := pow_pos (by norm_num) _
  have hle : 2 ^ (D - d1) * (1 + R) ≤ 2 ^ (D - d1) * 2 ^ d1 := by
    rw [← hT1, ← hscale1, ← pow_add, show D - d1 + d1 = D from by omega]
    exact hk
  have hTle : 1 + R ≤ 2 ^ d1 := Nat.le_of_mul_le_mul_left hle hpos
  have hodd : (1 + R) % 2 = 1 := by
    omega
  have h2even : 2 ^ d1 % 2 = 0 := by
    have : d1 ≠ 0 := by omega
    rcases Nat.exists_eq_succ_of_ne_zero this with ⟨e, rfl⟩
    simp [pow_succ, Nat.mul_mod_left]
  have hTlt : 2 + R ≤ 2 ^ d1 := by
    omega
  rw [hscale2, hT2]
  calc 2 ^ (D - d1) * (2 + R) ≤ 2 ^ (D - d1) * 2 ^ d1 :=
        Nat.mul_le_mul_left _ hTlt
    _ = 2 ^ D := by rw [← pow_add]; congr 1; omega

/-- Iterated tightening: the two deepest depths of a fitting, descending
depth vector can be levelled to the second one. -/
theorem kraft_tighten (D : Nat) :
    ∀ (k d1 d2 : Nat) (ds : List Nat), d1 = d2 + k → d1 ≤ D →
      (∀ d ∈ ds, d ≤ d2) → kraft D (d1 :: d2 :: ds) ≤ 2 ^ D →
      kraft D (d2 :: d2 :: ds) ≤ 2 ^ D := by
  intro k
  induction k with
  | zero =>
    intro d1 d2 ds he _ _ hk
    have : d1 = d2 := by omega
    subst this
    exact hk
  | succ k ih =>
    intro d1 d2 ds he hD hall hk
    have h1 := kraft_tighten_one D d1 d2 ds (by omega) hD hall hk
    exact ih (d1 - 1) d2 ds (by omega) (by omega) hall h1

/-- Sorting an already ascending list changes nothing. -/
theorem sortAsc_of_sorted {l : List Nat} (h : l.Sorted (· ≤ ·)) : sortAsc l = l :=
  List.eq_of_perm_of_sorted (sortAsc_perm l) (sortAsc_sorted l) h

/-- The pair sum of a zip is the dot product. -/
theorem psum_zip : ∀ (u v : List Nat), u.length = v.length →
    psum (u.zip v) = dot u v := by
  intro u
  induction u with
  | nil =>
    intro v h
    simp [psum, dot]
  | cons x u ih =>
    intro v h
    cases v with
    | nil => simp at h
    | cons y v =>
      simp only [List.zip_cons_cons, psum, List.map_cons, List.sum_cons, dot]
      have := ih v (by simpa using h)
      simp [psum] at this
      omega

/-- The central bound: the greedy merge cost of a weight list is at most the
weighted sum of any depth assignment whose Kraft sum fits into `2 ^ D`.
Instantiated with the all-`8` assignment this bounds the Huffman cost by the
cost of a fixed 8-bit code. -/
theorem wcost_le_psum (N : Nat) : ∀ (ps : List (Nat × Nat)) (D : Nat),
    ps.length ≤ N →
    (∀ p ∈ ps, p.2 ≤ D) →
    kraft D (ps.map Prod.snd) ≤ 2 ^ D →
    wcost (sortAsc (ps.map Prod.fst)) ≤ psum ps := by
  induction N with
  | zero =>
    intro ps D hlen _ _
    have hnil : ps = [] := List.length_eq_zero.mp (Nat.le_zero.mp hlen)
    subst hnil
    simp [sortAsc, wcost]
  | succ N ih =>
    intro ps D hlen hbound hk
    rcases hA : sortAsc (ps.map Prod.fst) with _ | ⟨a, A1⟩
    · simp [wcost]
    rcases A1 with _ | ⟨b, L⟩
    · simp [wcost]
    have hlenA := (sortAsc_perm (ps.map Prod.fst)).length_eq
    rw [hA] at hlenA
    simp only [List.length_cons, List.length_map] at hlenA
    have hlenD := (sortDesc_perm (ps.map Prod.snd)).length_eq
    rcases hDs : sortDesc (ps.map Prod.snd) with _ | ⟨d1, D1⟩
    · exfalso
      rw [hDs] at hlenD
      simp only [List.length_nil, List.length_map] at hlenD
      omega
    rcases D1 with _ | ⟨d2, ds⟩
    · exfalso
      rw [hDs] at hlenD
      simp only [List.length_cons, List.length_nil, List.length_map] at hlenD
      omega
    rw [hDs] at hlenD
    simp only [List.length_cons, List.length_map] at hlenD
    have hsD : (d1 :: d2 :: ds).Sorted (· ≥ ·) := hDs ▸ sortDesc_sorted _
    rcases List.sorted_cons.mp hsD with ⟨hd1all, hsD2⟩
    rcases List.sorted_cons.mp hsD2 with ⟨hd2all, _⟩
    have hd12 : d2 ≤ d1 := hd1all d2 (List.mem_cons_self _ _)
    have hsA : (a :: b :: L).Sorted (· ≤ ·) := hA ▸ sortAsc_sorted _
    rcases List.sorted_cons.mp hsA with ⟨_, hsA2⟩
    rcases List.sorted_cons.mp hsA2 with ⟨_, hsL⟩
    have hpermD : List.Perm (d1 :: d2 :: ds) (ps.map Prod.snd) :=
      hDs ▸ sortDesc_perm (ps.map Prod.snd)
    have hk1 : kraft D (d1 :: d2 :: ds) ≤ 2 ^ D := by
      rw [kraft_perm hpermD]
      exact hk
    have hd1le : d1 ≤ D := by
      have h1 : d1 ∈ ps.map Prod.snd :=
        hpermD.mem_iff.mp (List.mem_cons_self _ _)
      rcases List.mem_map.mp h1 with ⟨p, hp, hp2⟩
      rw [← hp2]
      exact hbound p hp
    have hd2pos : 1 ≤ d2 := by
      by_contra hcon
      have hd20 : d2 = 0 := by omega
      subst hd20
      have he : kraft D (d1 :: 0 :: ds) = 2 ^ (D - d1) + (2 ^ D + kraft D ds) := by
        simp [kraft]
      have hp1 : 0 < 2 ^ (D - d1) := pow_pos (by norm_num) _
      omega
    have hk2 : kraft D (d2 :: d2 :: ds) ≤ 2 ^ D :=
      kraft_tighten D (d1 - d2) d1 d2 ds (by omega) hd1le
        (fun d hd => hd2all d hd) hk1
    have hLds : L.length = ds.length := by omega
    -- the reduced instance: merge the two smallest weights at depth d2 - 1
    have hlen2 : ((a + b, d2 - 1) :: L.zip ds).length ≤ N := by
      simp only [List.length_cons, List.length_zip]
      omega
    have hbound2 : ∀ p ∈ (a + b, d2 - 1) :: L.zip ds, p.2 ≤ D := by
      intro p hp
      rcases List.mem_cons.mp hp with rfl | hp
      · simp
        omega
      · rcases List.of_mem_zip hp with ⟨_, h2⟩
        have := hd2all p.2 h2
        omega
    have hmapsnd : ((a + b, d2 - 1) :: L.zip ds).map Prod.snd = (d2 - 1) :: ds := by
      simp only [List.map_cons]
      rw [List.map_snd_zip]
      omega
    have hkraft2 : kraft D (((a + b, d2 - 1) :: L.zip ds).map Prod.snd) ≤ 2 ^ D := by
      rw [hmapsnd]
      have he : kraft D ((d2 - 1) :: ds) = kraft D (d2 :: d2 :: ds) := by
        simp only [kraft, List.map_cons, List.sum_cons]
        rw [show D - (d2 - 1) = (D - d2) + 1 from by omega, pow_succ]
        ring
      rw [he]
      exact hk2
    have hIH := ih ((a + b, d2 - 1) :: L.zip ds) D hlen2 hbound2 hkraft2
    have hmapfst : ((a + b, d2 - 1) :: L.zip ds).map Prod.fst = (a + b) :: L := by
      simp only [List.map_cons]
      rw [List.map_fst_zip]
      omega
    rw [hmapfst] at hIH
    have hsort2 : sortAsc ((a + b) :: L) = wIns (a + b) L := by
      simp only [sortAsc]
      rw [sortAsc_of_sorted hsL]
    rw [hsort2] at hIH
    have hpsum2 : psum ((a + b, d2 - 1) :: L.zip ds)
        = (a + b) * (d2 - 1) + dot L ds := by
      simp only [psum, List.map_cons, List.sum_cons]
      have := psum_zip L ds hLds
      simp only [psum] at this
      omega
    rw [hpsum2] at hIH
    calc wcost (a :: b :: L)
        = a + b + wcost (wIns (a + b) L) := by simp only [wcost]
      _ ≤ a + b + ((a + b) * (d2 - 1) + dot L ds) := by omega
      _ = (a + b) * d2 + dot L ds := by
          obtain ⟨e, rfl⟩ : ∃ e, d2 = e + 1 := ⟨d2 - 1, by omega⟩
          simp only [Nat.add_sub_cancel]
          ring
      _ = dot (a :: b :: L) (d2 :: d2 :: ds) := by
          simp only [dot]
          ring
      _ ≤ dot (a :: b :: L) (d1 :: d2 :: ds) := by
          have hmul : a * d2 ≤ a * d1 := Nat.mul_le_mul_left a hd12
          simp only [dot]
          omega
      _ = dot (sortAsc (ps.map Prod.fst)) (sortDesc (ps.map Prod.snd)) := by
          rw [hA, hDs]
      _ ≤ psum ps := rearrange_le ps.length ps (Nat.le_refl _)

/-- The (character, weight) pairs at the leaves of a tree, left to right. -/
def leavesOf : NodeP → List (Char × Nat)
  | .null => []
  | .node c f l r =>
    if l = .null ∧ r = .null then [(c, f)] else leavesOf l ++ leavesOf r

/-- Sum of the leaf weights of a tree. -/
def lsum (n : NodeP) : Nat := ((leavesOf n).map Prod.snd).sum

/-- The cost of a tree: the sum, over internal nodes, of the leaf weights
below them — equivalently the weighted sum of leaf depths. -/
def icost : NodeP → Nat
  | .null => 0
  | .node _ _ l r =>
    if l = .null ∧ r = .null then 0 else icost l + icost r + lsum l + lsum r

/-- Depth of the leaf labelled `c` in a tree (0 if absent). -/
def cdepth : NodeP → Char → Nat
  | .null, _ => 0
  | .node _ _ l r, c =>
    if l = .null ∧ r = .null then 0
    else if c ∈ (leavesOf l).map Prod.fst then cdepth l c + 1 else cdepth r c + 1

/-- A node whose two children are null (the shape `isLeaf` tests). -/
def leafShape : NodeP → Prop
  | .null => False
  | .node _ _ l r => l = .null ∧ r = .null

/-- The frequencies of the nodes of a queue. -/
def qWeights (q : List NodeP) : List Nat := q.map NodeP.frequency

/-- `sortedInsert` inserts one node. -/
theorem sortedInsert_length (n : NodeP) :
    ∀ q : List NodeP, (sortedInsert n q).length = q.length + 1 := by
  intro q
  induction q with
  | nil => rfl
  | cons m rest ih =>
    by_cases h : n.frequency < m.frequency
    · simp [sortedInsert, if_pos h]
    · simp [sortedInsert, if_neg h, ih]

/-- `sortedInsert` permutes consing. -/
theorem sortedInsert_perm (n : NodeP) :
    ∀ q : List NodeP, List.Perm (sortedInsert n q) (n :: q) := by
  intro q
  induction q with
  | nil => rfl
  | cons m rest ih =>
    by_cases h : n.frequency < m.frequency
    · simp [sortedInsert, if_pos h]
    · simp only [sortedInsert, if_neg h]
      exact (ih.cons m).trans (List.Perm.swap n m rest)

/-- On frequencies, `sortedInsert` is `wIns`. -/
theorem qWeights_sortedInsert (n : NodeP) :
    ∀ q : List NodeP, qWeights (sortedInsert n q) = wIns n.frequency (qWeights q) := by
  intro q
  induction q with
  | nil => rfl
  | cons m rest ih =>
    by_cases h : n.frequency < m.frequency
    · simp only [sortedInsert, if_pos h, qWeights, List.map_cons, wIns]
    · simp only [sortedInsert, if_neg h, qWeights, List.map_cons, wIns]
      exact congrArg (fun t => m.frequency :: t) ih

/-- The queue built by `buildTree` from a frequency list: permutation of the
corresponding leaf nodes. -/
theorem queue_fold_perm :
    ∀ (l : List (Char × Nat)) (q : List NodeP),
      List.Perm (l.foldl (fun q p => sortedInsert (.node p.1 p.2 .null .null) q) q)
        (l.map (fun p => NodeP.node p.1 p.2 .null .null) ++ q) := by
  intro l
  induction l with
  | nil =>
    intro q
    simp
  | cons p l ih =>
    intro q
    simp only [List.foldl_cons, List.map_cons, List.cons_append]
    refine (ih (sortedInsert (.node p.1 p.2 .null .null) q)).trans ?_
    refine (List.Perm.append_left _ (sortedInsert_perm _ q)).trans ?_
    exact List.perm_middle

/-- The queue built by `buildTree` has ascending frequencies. -/
theorem queue_fold_sorted :
    ∀ (l : List (Char × Nat)) (q : List NodeP),
      (qWeights q).Sorted (· ≤ ·) →
      (qWeights (l.foldl (fun q p => sortedInsert (.node p.1 p.2 .null .null) q) q)).Sorted
        (· ≤ ·) := by
  intro l
  induction l with
  | nil =>
    intro q h
    exact h
  | cons p l ih =>
    intro q h
    simp only [List.foldl_cons]
    refine ih _ ?_
    rw [qWeights_sortedInsert]
    exact wIns_sorted _ _ h

/-- Advancing the merge loop by one step on a queue of at least two nodes. -/
theorem mergeLoop_step (q : List NodeP) (h : 2 ≤ q.length) :
    mergeLoop q = mergeLoop (mergeStep q) := by
  rcases q with _ | ⟨a, _ | ⟨b, rest⟩⟩
  · simp at h
  · simp at h
  · show mergeIter ((a :: b :: rest).length - 1) _ = _
    have h1 : (a :: b :: rest).length - 1 = rest.length + 1 := by simp
    have h2 : (mergeStep (a :: b :: rest)).length - 1 = rest.length := by
      show (sortedInsert _ rest).length - 1 = rest.length
      rw [sortedInsert_length]
      omega
    rw [h1]
    show mergeIter rest.length (mergeStep (a :: b :: rest)) = _
    rw [mergeLoop, h2]

/-- Every non-null tree has at least one leaf. -/
theorem leaves_pos : ∀ n : NodeP, n ≠ .null → 1 ≤ (leavesOf n).length := by
  intro n
  induction n with
  | null =>
    intro h
    exact absurd rfl h
  | node c f l r ihl ihr =>
    intro _
    simp only [leavesOf]
    by_cases hc : l = NodeP.null ∧ r = NodeP.null
    · rw [if_pos hc]
      simp
    · rw [if_neg hc]
      rw [List.length_append]
      rcases Decidable.not_and_iff_or_not.mp hc with h | h
      · have := ihl h
        omega
      · have := ihr h
        omega

/-- Full specification of the merge loop on a non-empty queue of non-null,
weight-consistent nodes: it ends with exactly one tree; that tree is not a
bare leaf if at least one merge happened; its leaves are the leaves of the
queue; and its cost is the queue's cost plus the greedy merge cost of the
queue's frequency list. -/
theorem mergeLoop_spec :
    ∀ (k : Nat) (q : List NodeP), q.length = k + 1 →
      (∀ n ∈ q, n ≠ .null ∧ n.frequency = lsum n) →
      ∃ r, mergeLoop q = [r] ∧ r ≠ .null ∧
        (2 ≤ q.length → ¬ leafShape r) ∧
        List.Perm (leavesOf r) (q.map leavesOf).flatten ∧
        icost r = (q.map icost).sum + wcost (qWeights q) := by
  intro k
  induction k with
  | zero =>
    intro q hlen hinv
    rcases q with _ | ⟨n, _ | ⟨m, rest⟩⟩
    · simp at hlen
    · refine ⟨n, rfl, (hinv n (List.mem_cons_self _ _)).1, ?_, ?_, ?_⟩
      · intro h2
        simp at h2
      · simp
      · simp [qWeights, wcost, icost]
    · simp at hlen
  | succ k ih =>
    intro q hlen hinv
    rcases q with _ | ⟨a, _ | ⟨b, rest⟩⟩
    · simp at hlen
    · simp at hlen
    · have hstep : mergeLoop (a :: b :: rest)
          = mergeLoop (sortedInsert
              (.node (Char.ofNat 0) (a.frequency + b.frequency) a b) rest) :=
        mergeLoop_step _ (by simp)
      set p := NodeP.node (Char.ofNat 0) (a.frequency + b.frequency) a b with hp
      have hanull := (hinv a (List.mem_cons_self _ _)).1
      have hbnull := (hinv b (List.mem_cons_of_mem _ (List.mem_cons_self _ _))).1
      have hafreq := (hinv a (List.mem_cons_self _ _)).2
      have hbfreq := (hinv b (List.mem_cons_of_mem _ (List.mem_cons_self _ _))).2
      have hpleaves : leavesOf p = leavesOf a ++ leavesOf b := by
        rw [hp]
        simp only [leavesOf]
        rw [if_neg (show ¬(a = NodeP.null ∧ b = NodeP.null) from fun hc => hanull hc.1)]
      have hplsum : lsum p = lsum a + lsum b := by
        simp [lsum, hpleaves]
      have hpicost : icost p = icost a + icost b + lsum a + lsum b := by
        rw [hp]
        simp only [icost]
        rw [if_neg (show ¬(a = NodeP.null ∧ b = NodeP.null) from fun hc => hanull hc.1)]
      have hpnull : p ≠ NodeP.null := by
        rw [hp]
        intro hc
        cases hc
      have hpfreq : NodeP.frequency p = lsum p := by
        rw [hplsum, hp]
        show a.frequency + b.frequency = _
        rw [hafreq, hbfreq]
      have hinv2 : ∀ n ∈ sortedInsert p rest, n ≠ .null ∧ n.frequency = lsum n := by
        intro n hn
        rcases List.mem_cons.mp ((sortedInsert_perm p rest).mem_iff.mp hn) with rfl | hn2
        · exact ⟨hpnull, hpfreq⟩
        · exact hinv n (List.mem_cons_of_mem _ (List.mem_cons_of_mem _ hn2))
      have hlen2 : (sortedInsert p rest).length = k + 1 := by
        rw [sortedInsert_length]
        simp at hlen
        omega
      obtain ⟨r, hr1, hr2, _, hr4, hr5⟩ := ih (sortedInsert p rest) hlen2 hinv2
      refine ⟨r, by rw [hstep]; exact hr1, hr2, ?_, ?_, ?_⟩
      · intro _
        -- the result has at least the two leaves contributed by `a` and `b`,
        -- so it cannot be a bare leaf
        have hlenleaves : 2 ≤ (leavesOf r).length := by
          have hperm2 := (hr4.trans
            (((sortedInsert_perm p rest).map leavesOf).flatten)).length_eq
          simp only [List.map_cons, List.flatten_cons] at hperm2
          rw [hpleaves] at hperm2
          simp only [List.length_append] at hperm2
          have ha1 := leaves_pos a hanull
          have hb1 := leaves_pos b hbnull
          omega
        intro hleaf
        cases r with
        | null => exact hr2 rfl
        | node c f l r2 =>
          have hc : l = NodeP.null ∧ r2 = NodeP.null := hleaf
          have he : leavesOf (NodeP.node c f l r2) = [(c, f)] := by
            simp only [leavesOf]
            rw [if_pos hc]
          rw [he] at hlenleaves
          simp at hlenleaves
      · refine hr4.trans ?_
        refine (((sortedInsert_perm p rest).map leavesOf).flatten).trans ?_
        simp only [List.map_cons, List.flatten_cons]
        rw [hpleaves, List.append_assoc]
      · rw [hr5]
        have hsum : ((sortedInsert p rest).map icost).sum
            = icost p + (rest.map icost).sum := by
          have := ((sortedInsert_perm p rest).map icost).sum_eq
          simpa using this
        have hw : qWeights (sortedInsert p rest)
            = wIns (a.frequency + b.frequency) (qWeights rest) := by
          rw [qWeights_sortedInsert]
          rfl
        have hwc : wcost (qWeights (a :: b :: rest))
            = a.frequency + b.frequency
              + wcost (wIns (a.frequency + b.frequency) (qWeights rest)) := by
          show wcost (a.frequency :: b.frequency :: qWeights rest) = _
          simp only [wcost]
        rw [hsum, hw, hwc, hpicost]
        simp only [List.map_cons, List.sum_cons]
        omega

/-- The keys of `frequencies` after one increment: unchanged if the character
was present, otherwise the character is appended. -/
theorem mapIncr_keys (c : Char) :
    ∀ m : List (Char × Nat), (mapIncr c m).map Prod.fst =
      if c ∈ m.map Prod.fst then m.map Prod.fst else m.map Prod.fst ++ [c] := by
  intro m
  induction m with
  | nil => simp [mapIncr]
  | cons p rest ih =>
    rcases p with ⟨k, v⟩
    by_cases hk : k = c
    · subst hk
      simp [mapIncr]
    · simp only [mapIncr, if_neg hk, List.map_cons]
      rw [ih]
      by_cases hmem : c ∈ rest.map Prod.fst
      · rw [if_pos hmem, if_pos (by simp [hmem])]
      · rw [if_neg hmem, if_neg (by simp [hmem, Ne.symm hk])]
        simp

/-- The values of `frequencies` gain exactly one on each increment. -/
theorem mapIncr_sum (c : Char) :
    ∀ m : List (Char × Nat),
      ((mapIncr c m).map Prod.snd).sum = (m.map Prod.snd).sum + 1 := by
  intro m
  induction m with
  | nil => simp [mapIncr]
  | cons p rest ih =>
    rcases p with ⟨k, v⟩
    by_cases hk : k = c
    · subst hk
      simp [mapIncr]
      omega
    · simp only [mapIncr, if_neg hk, List.map_cons, List.sum_cons]
      omega

/-- Weighted-sum bookkeeping for one increment: the weighted sum over the
table grows by the weight of the incremented character. -/
theorem mapIncr_wsum (c : Char) (g : Char → Nat) :
    ∀ m : List (Char × Nat),
      ((mapIncr c m).map (fun p => p.2 * g p.1)).sum
        = (m.map (fun p => p.2 * g p.1)).sum + g c := by
  intro m
  induction m with
  | nil => simp [mapIncr]
  | cons p rest ih =>
    rcases p with ⟨k, v⟩
    by_cases hk : k = c
    · subst hk
      have he : mapIncr k ((k, v) :: rest) = (k, v + 1) :: rest := by
        simp [mapIncr]
      rw [he]
      simp only [List.map_cons, List.sum_cons]
      ring_nf
      omega
    · simp only [mapIncr, if_neg hk, List.map_cons, List.sum_cons]
      omega

/-- Folding the frequency count over a text preserves distinctness of keys. -/
theorem countFold_keys_nodup :
    ∀ (t : List Char) (m : List (Char × Nat)), (m.map Prod.fst).Nodup →
      ((t.foldl (fun m c => mapIncr c m) m).map Prod.fst).Nodup := by
  intro t
  induction t with
  | nil =>
    intro m h
    exact h
  | cons c rest ih =>
    intro m h
    simp only [List.foldl_cons]
    refine ih _ ?_
    rw [mapIncr_keys]
    by_cases hmem : c ∈ m.map Prod.fst
    · rw [if_pos hmem]
      exact h
    · rw [if_neg hmem]
      refine List.Nodup.append h (List.nodup_singleton c) ?_
      intro a ha hac
      have haeq := List.mem_singleton.mp hac
      subst haeq
      exact hmem ha

/-- Every key of the folded frequency table comes from the seed table or the
text. -/
theorem countFold_keys_sub :
    ∀ (t : List Char) (m : List (Char × Nat)) (c : Char),
      c ∈ (t.foldl (fun m c => mapIncr c m) m).map Prod.fst →
      c ∈ m.map Prod.fst ∨ c ∈ t := by
  intro t
  induction t with
  | nil =>
    intro m c h
    exact Or.inl h
  | cons x rest ih =>
    intro m c h
    simp only [List.foldl_cons] at h
    rcases ih _ c h with h2 | h2
    · rw [mapIncr_keys] at h2
      by_cases hmem : x ∈ m.map Prod.fst
      · rw [if_pos hmem] at h2
        exact Or.inl h2
      · rw [if_neg hmem] at h2
        rcases List.mem_append.mp h2 with h3 | h3
        · exact Or.inl h3
        · simp at h3
          subst h3
          exact Or.inr (List.mem_cons_self _ _)
    · exact Or.inr (List.mem_cons_of_mem _ h2)

/-- Every character of the text is a key of the folded frequency table. -/
theorem countFold_keys_mem :
    ∀ (t : List Char) (m : List (Char × Nat)) (c : Char), c ∈ t →
      c ∈ (t.foldl (fun m c => mapIncr c m) m).map Prod.fst := by
  intro t
  induction t with
  | nil =>
    intro m c h
    simp at h
  | cons x rest ih =>
    intro m c h
    simp only [List.foldl_cons]
    rcases List.mem_cons.mp h with rfl | h2
    · -- after the increment the key stays present through the rest of the fold
      have hin : c ∈ (mapIncr c m).map Prod.fst := by
        rw [mapIncr_keys]
        by_cases hmem : c ∈ m.map Prod.fst
        · rw [if_pos hmem]
          exact hmem
        · rw [if_neg hmem]
          simp
      -- a key never disappears under further increments
      have hkeep : ∀ (s : List Char) (m2 : List (Char × Nat)),
          c ∈ m2.map Prod.fst →
          c ∈ (s.foldl (fun m c => mapIncr c m) m2).map Prod.fst := by
        intro s
        induction s with
        | nil =>
          intro m2 hm
          exact hm
        | cons y ys ihs =>
          intro m2 hm
          simp only [List.foldl_cons]
          refine ihs _ ?_
          rw [mapIncr_keys]
          by_cases hmem : y ∈ m2.map Prod.fst
          · rw [if_pos hmem]
            exact hm
          · rw [if_neg hmem]
            exact List.mem_append.mpr (Or.inl hm)
      exact hkeep rest _ hin
    · exact ih _ c h2

/-- The values of the folded frequency table sum to the seed total plus the
text length. -/
theorem countFold_sum :
    ∀ (t : List Char) (m : List (Char × Nat)),
      ((t.foldl (fun m c => mapIncr c m) m).map Prod.snd).sum
        = (m.map Prod.snd).sum + t.length := by
  intro t
  induction t with
  | nil =>
    intro m
    simp
  | cons c rest ih =>
    intro m
    simp only [List.foldl_cons, List.length_cons]
    rw [ih, mapIncr_sum]
    omega

/-- Regrouping a per-character sum over the text into a per-key weighted sum
over the folded frequency table. -/
theorem countFold_wsum (g : Char → Nat) :
    ∀ (t : List Char) (m : List (Char × Nat)),
      ((t.foldl (fun m c => mapIncr c m) m).map (fun p => p.2 * g p.1)).sum
        = (m.map (fun p => p.2 * g p.1)).sum + (t.map g).sum := by
  intro t
  induction t with
  | nil =>
    intro m
    simp
  | cons c rest ih =>
    intro m
    simp only [List.foldl_cons, List.map_cons, List.sum_cons]
    rw [ih, mapIncr_wsum]
    omega

/-- A key of an association list owns some entry. -/
theorem key_to_pair {m : List (Char × Nat)} {c : Char}
    (h : c ∈ m.map Prod.fst) : ∃ n, (c, n) ∈ m := by
  rcases List.mem_map.mp h with ⟨p, hp, hp1⟩
  exact ⟨p.2, by rw [← hp1]; exact hp⟩

/-- Looking up the just-written key. -/
theorem mapFind_mapInsert_self (k : Char) (v : List Char) :
    ∀ m, mapFind k (mapInsert k v m) = some v := by
  intro m
  induction m with
  | nil => simp [mapInsert, mapFind]
  | cons p rest ih =>
    rcases p with ⟨k2, v2⟩
    by_cases hk : k2 = k
    · simp [mapInsert, if_pos hk, mapFind]
    · simp [mapInsert, if_neg hk, mapFind, hk, ih]

/-- Looking up another key is unaffected by a write. -/
theorem mapFind_mapInsert_ne {c k : Char} (hck : k ≠ c) (v : List Char) :
    ∀ m, mapFind c (mapInsert k v m) = mapFind c m := by
  intro m
  induction m with
  | nil => simp [mapInsert, mapFind, hck]
  | cons p rest ih =>
    rcases p with ⟨k2, v2⟩
    by_cases hk : k2 = k
    · subst hk
      simp [mapInsert, mapFind, hck]
    · simp only [mapInsert, if_neg hk, mapFind]
      by_cases hc : k2 = c
      · simp [if_pos hc]
      · simp [if_neg hc, ih]

/-- `generateCodes` does not touch the entries of characters that do not
occur below the traversed node. -/
theorem generateCodes_preserve :
    ∀ (n : NodeP) (p : List Char) (acc : List (Char × List Char)) (c : Char),
      c ∉ (leavesOf n).map Prod.fst →
      mapFind c (generateCodes n p acc) = mapFind c acc := by
  intro n
  induction n with
  | null =>
    intro p acc c _
    rfl
  | node ch f l r ihl ihr =>
    intro p acc c hnot
    by_cases hleaf : l = NodeP.null ∧ r = NodeP.null
    · simp only [generateCodes, if_pos hleaf]
      have hch : ch ≠ c := by
        intro he
        apply hnot
        simp [leavesOf, if_pos hleaf, he]
      exact mapFind_mapInsert_ne hch _ acc
    · simp only [generateCodes, if_neg hleaf]
      simp only [leavesOf, if_neg hleaf, List.map_append, List.mem_append] at hnot
      push_neg at hnot
      rw [ihr _ _ c hnot.2, ihl _ _ c hnot.1]

/-- The code `generateCodes` records for each leaf: a string extending the
accumulated path by the leaf's depth.  The traversal needs distinct leaf
characters and, at a bare leaf, a non-empty accumulated path. -/
theorem generateCodes_find :
    ∀ (n : NodeP) (p : List Char) (acc : List (Char × List Char)) (c : Char) (w : Nat),
      ((leavesOf n).map Prod.fst).Nodup →
      (p = [] → ¬ leafShape n) →
      (c, w) ∈ leavesOf n →
      ∃ code, mapFind c (generateCodes n p acc) = some code ∧
        code.length = p.length + cdepth n c := by
  intro n
  induction n with
  | null =>
    intro p acc c w _ _ hmem
    simp [leavesOf] at hmem
  | node ch f l r ihl ihr =>
    intro p acc c w hnodup hp hmem
    by_cases hleaf : l = NodeP.null ∧ r = NodeP.null
    · have hpne : p ≠ [] := by
        intro he
        exact hp he hleaf
      simp only [leavesOf, if_pos hleaf, List.mem_singleton] at hmem
      injection hmem with hc hw
      subst hc
      simp only [generateCodes, if_pos hleaf]
      have hempty : p.isEmpty = false := by
        cases p with
        | nil => exact absurd rfl hpne
        | cons a q => rfl
      rw [hempty]
      refine ⟨p, ?_, ?_⟩
      · simp only [Bool.false_eq_true, if_false]
        exact mapFind_mapInsert_self c p acc
      · simp only [cdepth, if_pos hleaf]
        omega
    · simp only [generateCodes, if_neg hleaf]
      simp only [leavesOf, if_neg hleaf, List.map_append] at hnodup
      have hnodupl : ((leavesOf l).map Prod.fst).Nodup :=
        (List.nodup_append.mp hnodup).1
      have hnodupr : ((leavesOf r).map Prod.fst).Nodup :=
        (List.nodup_append.mp hnodup).2.1
      have hdisj : ∀ c2 ∈ (leavesOf l).map Prod.fst,
          c2 ∉ (leavesOf r).map Prod.fst := by
        intro c2 h2 h3
        exact (List.nodup_append.mp hnodup).2.2 h2 h3
      simp only [leavesOf, if_neg hleaf, List.mem_append] at hmem
      rcases hmem with hmem | hmem
      · have hcl : c ∈ (leavesOf l).map Prod.fst := by
          exact List.mem_map.mpr ⟨(c, w), hmem, rfl⟩
        have hcr : c ∉ (leavesOf r).map Prod.fst := hdisj c hcl
        obtain ⟨code, hfind, hlen⟩ :=
          ihl (p ++ ['0']) acc c w hnodupl (by simp) hmem
        refine ⟨code, ?_, ?_⟩
        · rw [generateCodes_preserve r _ _ c hcr]
          exact hfind
        · rw [hlen]
          simp only [cdepth, if_neg hleaf, if_pos hcl, List.length_append]
          simp
          omega
      · have hcr : c ∈ (leavesOf r).map Prod.fst := by
          exact List.mem_map.mpr ⟨(c, w), hmem, rfl⟩
        have hcl : c ∉ (leavesOf l).map Prod.fst := by
          intro h2
          exact hdisj c h2 hcr
        obtain ⟨code, hfind, hlen⟩ :=
          ihr (p ++ ['1']) (generateCodes l (p ++ ['0']) acc) c w hnodupr (by simp) hmem
        refine ⟨code, hfind, ?_⟩
        rw [hlen]
        simp only [cdepth, if_neg hleaf, if_neg hcl, List.length_append]
        simp
        omega

/-- Sum of a pointwise sum of maps. -/
theorem sum_map_add {α : Type} (f g : α → Nat) :
    ∀ l : List α, (l.map (fun x => f x + g x)).sum = (l.map f).sum + (l.map g).sum := by
  intro l
  induction l with
  | nil => simp
  | cons x rest ih =>
    simp only [List.map_cons, List.sum_cons, ih]
    omega

/-- The weighted sum of leaf depths is the tree cost. -/
theorem depth_wsum :
    ∀ n : NodeP, ((leavesOf n).map Prod.fst).Nodup →
      ((leavesOf n).map (fun cw => cw.2 * cdepth n cw.1)).sum = icost n := by
  intro n
  induction n with
  | null =>
    intro _
    simp [leavesOf, icost]
  | node ch f l r ihl ihr =>
    intro hnodup
    by_cases hleaf : l = NodeP.null ∧ r = NodeP.null
    · simp [leavesOf, if_pos hleaf, icost, cdepth]
    · simp only [leavesOf, if_neg hleaf, List.map_append] at hnodup ⊢
      have hnodupl : ((leavesOf l).map Prod.fst).Nodup :=
        (List.nodup_append.mp hnodup).1
      have hnodupr : ((leavesOf r).map Prod.fst).Nodup :=
        (List.nodup_append.mp hnodup).2.1
      have hdisj : ∀ c2 ∈ (leavesOf l).map Prod.fst,
          c2 ∉ (leavesOf r).map Prod.fst := by
        intro c2 h2 h3
        exact (List.nodup_append.mp hnodup).2.2 h2 h3
      rw [List.sum_append]
      have hLeft : ((leavesOf l).map (fun cw => cw.2 * cdepth (NodeP.node ch f l r) cw.1)).sum
          = icost l + lsum l := by
        have hcong : (leavesOf l).map (fun cw => cw.2 * cdepth (NodeP.node ch f l r) cw.1)
            = (leavesOf l).map (fun cw => cw.2 * cdepth l cw.1 + cw.2) := by
          apply List.map_congr_left
          intro cw hcw
          have hin : cw.1 ∈ (leavesOf l).map Prod.fst :=
            List.mem_map.mpr ⟨cw, hcw, rfl⟩
          simp only [cdepth, if_neg hleaf, if_pos hin]
          ring
        rw [hcong, sum_map_add, ihl hnodupl]
        rfl
      have hRight : ((leavesOf r).map (fun cw => cw.2 * cdepth (NodeP.node ch f l r) cw.1)).sum
          = icost r + lsum r := by
        have hcong : (leavesOf r).map (fun cw => cw.2 * cdepth (NodeP.node ch f l r) cw.1)
            = (leavesOf r).map (fun cw => cw.2 * cdepth r cw.1 + cw.2) := by
          apply List.map_congr_left
          intro cw hcw
          have hin : cw.1 ∈ (leavesOf r).map Prod.fst :=
            List.mem_map.mpr ⟨cw, hcw, rfl⟩
          have hnotl : cw.1 ∉ (leavesOf l).map Prod.fst := by
            intro h2
            exact hdisj cw.1 h2 hin
          simp only [cdepth, if_neg hleaf, if_neg hnotl]
          ring
        rw [hcong, sum_map_add, ihr hnodupr]
        rfl
      rw [hLeft, hRight]
      simp only [icost, if_neg hleaf]
      omega

/-- When every character is in the table, the encode loop appends exactly the
looked-up codes, so the result length is the sum of the code lengths. -/
theorem encodeLoop_length :
    ∀ (text : List Char) (codes : List (Char × List Char)) (res : List Char),
      (∀ c ∈ text, ∃ v, mapFind c codes = some v) →
      (encodeLoop text codes res).1.length
        = res.length + (text.map (fun c => ((mapFind c codes).getD []).length)).sum := by
  intro text
  induction text with
  | nil =>
    intro codes res _
    simp [encodeLoop]
  | cons c rest ih =>
    intro codes res hall
    obtain ⟨v, hv⟩ := hall c (List.mem_cons_self _ _)
    have hstep : encodeLoop (c :: rest) codes res = encodeLoop rest codes (res ++ v) := by
      simp only [encodeLoop, hv]
    rw [hstep, ih codes (res ++ v) (fun c2 h2 => hall c2 (List.mem_cons_of_mem _ h2))]
    simp only [List.map_cons, List.sum_cons, List.length_append, hv, Option.getD_some]
    omega

/-- A leaf node of the initial queue. -/
theorem leavesOf_leaf (c : Char) (w : Nat) :
    leavesOf (NodeP.node c w .null .null) = [(c, w)] := by
  simp [leavesOf]

/-- Leaf nodes cost nothing. -/
theorem icost_leaf (c : Char) (w : Nat) :
    icost (NodeP.node c w .null .null) = 0 := by
  simp [icost]

/-- Joining singletons of the pairs of a list gives the list back. -/
theorem join_singleton_pairs :
    ∀ l : List (Char × Nat), (l.map (fun p => [(p.1, p.2)])).flatten = l := by
  intro l
  induction l with
  | nil => rfl
  | cons p rest ih =>
    simp only [List.map_cons, List.flatten_cons, ih]
    rfl

/-- Multiplying a sum by a constant, list form. -/
theorem sum_map_mul_const :
    ∀ (l : List Nat) (k : Nat), (l.map (fun x => x * k)).sum = l.sum * k := by
  intro l k
  induction l with
  | nil => simp
  | cons x rest ih =>
    simp only [List.map_cons, List.sum_cons, ih]
    ring

/-- A list of at most 256 distinct characters below code point 256. -/
theorem nodup_char_lt256_length {l : List Char} (hnodup : l.Nodup)
    (hlt : ∀ c ∈ l, c.toNat < 256) : l.length ≤ 256 := by
  have hinj : Function.Injective Char.toNat := by
    intro a b h
    exact Char.eq_of_val_eq (UInt32.eq_of_toBitVec_eq (by
      have h1 : a.val.toNat = b.val.toNat := h
      exact BitVec.eq_of_toNat_eq (by simpa [UInt32.toNat] using h1)))
  have hnodup2 : (l.map Char.toNat).Nodup := hnodup.map hinj
  have hsub : (l.map Char.toNat).toFinset ⊆ Finset.range 256 := by
    intro x hx
    rcases List.mem_map.mp (List.mem_toFinset.mp hx) with ⟨c, hc, rfl⟩
    exact Finset.mem_range.mpr (hlt c hc)
  calc l.length = (l.map Char.toNat).length := (List.length_map _ _).symm
    _ = (l.map Char.toNat).toFinset.card := (List.toFinset_card_of_nodup hnodup2).symm
    _ ≤ (Finset.range 256).card := Finset.card_le_card hsub
    _ = 256 := Finset.card_range 256


/-- Claim C7 (amended): for every text of 8-bit symbols accepted by
`buildTree` on a fresh codec, the encoded bit length is at most the
fixed-width total of 8 bits per symbol.  (Equality is not confined to one- or
two-symbol alphabets: the uniform 256-symbol input attains it.) -/
theorem claim7_amended_encoded_length_bound (t : List Char) (st : CodecState)
    (hchars : ∀ c ∈ t, c.toNat < 256)
    (h : buildTree t initState = some st) :
    (st.encode t).1.length ≤ 8 * t.length := by
  obtain ⟨hfreq, ⟨rest, hroot⟩, hcodes⟩ := buildTree_fresh_spec t st h
  have hnodupF : ((freshFrequencies t).map Prod.fst).Nodup :=
    countFold_keys_nodup t [] (by simp)
  have hkeysub : ∀ c ∈ (freshFrequencies t).map Prod.fst, c ∈ t := by
    intro c hc
    rcases countFold_keys_sub t [] c hc with h2 | h2
    · simp at h2
    · exact h2
  have hkeymem : ∀ c ∈ t, c ∈ (freshFrequencies t).map Prod.fst :=
    fun c hc => countFold_keys_mem t [] c hc
  have hsumF : ((freshFrequencies t).map Prod.snd).sum = t.length := by
    have := countFold_sum t []
    simpa using this
  have hFlen : (freshFrequencies t).length ≤ 256 := by
    have h1 := nodup_char_lt256_length hnodupF
      (fun c hc => hchars c (hkeysub c hc))
    simpa using h1
  have hQperm : List.Perm (freshQueue t)
      ((freshFrequencies t).map (fun p => NodeP.node p.1 p.2 .null .null)) := by
    have := queue_fold_perm (freshFrequencies t) []
    simpa using this
  have hQne : freshQueue t ≠ [] := by
    intro hq
    rw [hq] at hroot
    cases hroot
  have hQpos : 1 ≤ (freshQueue t).length := by
    cases hq : freshQueue t with
    | nil => exact absurd hq hQne
    | cons a q => simp
  have hlen1 : ∀ hall : (∀ c ∈ t, ∃ v, mapFind c st.codes = some v),
      (st.encode t).1.length
        = (t.map (fun c => ((mapFind c st.codes).getD []).length)).sum := by
    intro hall
    show (encodeLoop t st.codes []).1.length = _
    rw [encodeLoop_length t st.codes [] hall]
    simp
  by_cases hQ2 : 2 ≤ (freshQueue t).length
  · -- at least two distinct symbols
    have hQinv : ∀ n ∈ freshQueue t, n ≠ .null ∧ n.frequency = lsum n := by
      intro n hn
      rcases List.mem_map.mp (hQperm.mem_iff.mp hn) with ⟨p, _, rfl⟩
      constructor
      · intro hc
        cases hc
      · show p.2 = lsum (NodeP.node p.1 p.2 .null .null)
        rw [lsum, leavesOf_leaf]
        simp
    obtain ⟨r0, hr0eq, hr0null, hr0shape, hr0leaves, hr0cost⟩ :=
      mergeLoop_spec ((freshQueue t).length - 1) (freshQueue t) (by omega) hQinv
    have hrooteq : st.root = r0 := by
      rw [hr0eq] at hroot
      injection hroot with h1 _
      exact h1.symm
    rw [← hrooteq] at hr0leaves hr0cost hr0shape hr0null
    have hshape : ¬ leafShape st.root := hr0shape hQ2
    have hmapleaves : ((freshFrequencies t).map
          (fun p => NodeP.node p.1 p.2 .null .null)).map leavesOf
        = (freshFrequencies t).map (fun p => [(p.1, p.2)]) := by
      rw [List.map_map]
      apply List.map_congr_left
      intro p _
      exact leavesOf_leaf p.1 p.2
    have hleafperm : List.Perm (leavesOf st.root) (freshFrequencies t) := by
      refine hr0leaves.trans ?_
      refine ((hQperm.map leavesOf).flatten).trans ?_
      rw [hmapleaves, join_singleton_pairs]
    have hnodupRoot : ((leavesOf st.root).map Prod.fst).Nodup :=
      ((hleafperm.map Prod.fst).nodup_iff).mpr hnodupF
    have hall : ∀ c ∈ t, ∃ v, mapFind c st.codes = some v := by
      intro c hc
      obtain ⟨w, hw⟩ := key_to_pair (hkeymem c hc)
      obtain ⟨code, hfind, _⟩ := generateCodes_find st.root [] [] c w hnodupRoot
        (fun _ => hshape) (hleafperm.mem_iff.mpr hw)
      exact ⟨code, by rw [hcodes]; exact hfind⟩
    have hlen2 : (t.map (fun c => ((mapFind c st.codes).getD []).length)).sum
        = ((freshFrequencies t).map
            (fun p => p.2 * ((mapFind p.1 st.codes).getD []).length)).sum := by
      have := countFold_wsum (fun c => ((mapFind c st.codes).getD []).length) t []
      simpa using this.symm
    have hdepth : ∀ p ∈ freshFrequencies t,
        p.2 * ((mapFind p.1 st.codes).getD []).length
          = p.2 * cdepth st.root p.1 := by
      intro p hp
      have hp2 : (p.1, p.2) ∈ freshFrequencies t := by simpa using hp
      obtain ⟨code, hfind, hlenc⟩ := generateCodes_find st.root [] [] p.1 p.2 hnodupRoot
        (fun _ => hshape) (hleafperm.mem_iff.mpr hp2)
      rw [hcodes, hfind]
      simp only [Option.getD_some]
      rw [hlenc]
      simp
    have hlen3 : ((freshFrequencies t).map
          (fun p => p.2 * ((mapFind p.1 st.codes).getD []).length)).sum
        = ((freshFrequencies t).map (fun p => p.2 * cdepth st.root p.1)).sum := by
      congr 1
      exact List.map_congr_left hdepth
    have hlen4 : ((freshFrequencies t).map (fun p => p.2 * cdepth st.root p.1)).sum
        = icost st.root := by
      have hpermsum := ((hleafperm.symm).map
        (fun cw : Char × Nat => cw.2 * cdepth st.root cw.1)).sum_eq
      rw [← depth_wsum st.root hnodupRoot]
      exact hpermsum
    have hQcost0 : ((freshQueue t).map icost).sum = 0 := by
      apply List.sum_eq_zero
      intro x hx
      rcases List.mem_map.mp hx with ⟨n, hn, rfl⟩
      rcases List.mem_map.mp (hQperm.mem_iff.mp hn) with ⟨p, _, rfl⟩
      exact icost_leaf p.1 p.2
    have hwq : List.Perm (qWeights (freshQueue t))
        ((freshFrequencies t).map Prod.snd) := by
      refine (hQperm.map NodeP.frequency).trans ?_
      rw [List.map_map]
      exact List.Perm.refl _
    have hsumQ : (qWeights (freshQueue t)).sum = t.length := by
      rw [hwq.sum_eq, hsumF]
    have hQsorted : (qWeights (freshQueue t)).Sorted (· ≤ ·) :=
      queue_fold_sorted (freshFrequencies t) [] (by simp [qWeights])
    have hbound8 := wcost_le_psum ((qWeights (freshQueue t)).map (fun w => (w, 8))).length
      ((qWeights (freshQueue t)).map (fun w => (w, 8))) 8 (Nat.le_refl _)
      (by
        intro p hp
        rcases List.mem_map.mp hp with ⟨w, _, rfl⟩
        exact Nat.le_refl 8)
      (by
        rw [List.map_map]
        have hm : (qWeights (freshQueue t)).map (Prod.snd ∘ fun w => (w, 8))
            = (qWeights (freshQueue t)).map (fun _ => 8) := rfl
        rw [hm]
        have hk : kraft 8 ((qWeights (freshQueue t)).map (fun _ => 8))
            = (qWeights (freshQueue t)).length := by
          rw [kraft, List.map_map]
          have h2 : (qWeights (freshQueue t)).map ((fun d => 2 ^ (8 - d)) ∘ fun _ => 8)
              = (qWeights (freshQueue t)).map (fun _ => 1) := rfl
          rw [h2]
          simp [List.map_const]
        rw [hk]
        have hQF : (qWeights (freshQueue t)).length = (freshFrequencies t).length := by
          have := hwq.length_eq
          simpa using this
        rw [hQF]
        calc (freshFrequencies t).length ≤ 256 := hFlen
          _ = 2 ^ 8 := by norm_num)
    have hfst : ((qWeights (freshQueue t)).map (fun w => (w, 8))).map Prod.fst
        = qWeights (freshQueue t) := by
      rw [List.map_map]
      have h2 : (qWeights (freshQueue t)).map (Prod.fst ∘ fun w => (w, 8))
          = (qWeights (freshQueue t)).map (fun w => w) := rfl
      rw [h2, List.map_id']
    rw [hfst, sortAsc_of_sorted hQsorted] at hbound8
    have hpsum8 : psum ((qWeights (freshQueue t)).map (fun w => (w, 8)))
        = t.length * 8 := by
      rw [psum, List.map_map]
      have h2 : (qWeights (freshQueue t)).map
            ((fun p : Nat × Nat => p.1 * p.2) ∘ fun w => (w, 8))
          = (qWeights (freshQueue t)).map (fun w => w * 8) := rfl
      rw [h2, sum_map_mul_const, hsumQ]
    rw [hpsum8] at hbound8
    rw [hlen1 hall, hlen2, hlen3, hlen4, hr0cost, hQcost0]
    omega
  · -- exactly one distinct symbol: the root is the single leaf node and the
    -- table maps its character to "0"
    have hQ1 : (freshQueue t).length = 1 := by omega
    rcases List.length_eq_one.mp hQ1 with ⟨n0, hn0⟩
    have hml : mergeLoop (freshQueue t) = [n0] := by
      rw [hn0]
      rfl
    have hrootn : st.root = n0 := by
      rw [hml] at hroot
      injection hroot with h1 _
      exact h1.symm
    have hn0mem : n0 ∈ freshQueue t := by
      rw [hn0]
      exact List.mem_cons_self _ _
    rcases List.mem_map.mp (hQperm.mem_iff.mp hn0mem) with ⟨p0, hp0mem, hp0eq⟩
    have hcodeseq : st.codes = [(p0.1, ['0'])] := by
      rw [hcodes, hrootn, ← hp0eq]
      rfl
    have hF1 : (freshFrequencies t).length = 1 := by
      have := hQperm.length_eq
      simp only [List.length_map] at this
      omega
    rcases List.length_eq_one.mp hF1 with ⟨q0, hq0⟩
    have hq0p0 : q0 = p0 := by
      rw [hq0] at hp0mem
      exact (List.mem_singleton.mp hp0mem).symm
    have hkeysingle : ∀ c ∈ t, c = p0.1 := by
      intro c hc
      have := hkeymem c hc
      rw [hq0, hq0p0] at this
      simpa using this
    have hall : ∀ c ∈ t, ∃ v, mapFind c st.codes = some v := by
      intro c hc
      rw [hcodeseq, hkeysingle c hc]
      exact ⟨['0'], by simp [mapFind]⟩
    have hone : ∀ c ∈ t, ((mapFind c st.codes).getD []).length = 1 := by
      intro c hc
      rw [hcodeseq, hkeysingle c hc]
      simp [mapFind]
    have hconst : (t.map (fun c => ((mapFind c st.codes).getD []).length)).sum
        = t.length := by
      have hcong : t.map (fun c => ((mapFind c st.codes).getD []).length)
          = t.map (fun _ => 1) := List.map_congr_left hone
      rw [hcong]
      simp [List.map_const]
    rw [hlen1 hall, hconst]
    omega

/-- The uniform 256-symbol input: every 8-bit code point exactly once. -/
def text256 : List Char := (List.range 256).map Char.ofNat

/-- Reading back the code point of a character built from a small `Nat`. -/
theorem char_ofNat_toNat_small {n : Nat} (h : n < 55296) : (Char.ofNat n).toNat = n := by
  have hv : n.isValidChar := Or.inl h
  simp only [Char.ofNat]
  rw [dif_pos hv]
  rfl

/-- The 256 characters of the uniform input are pairwise distinct. -/
theorem text256_nodup : text256.Nodup := by
  refine List.Nodup.map_on ?_ (List.nodup_range 256)
  intro a ha b hb hab
  have ha2 : a < 55296 := Nat.lt_trans (List.mem_range.mp ha) (by norm_num)
  have hb2 : b < 55296 := Nat.lt_trans (List.mem_range.mp hb) (by norm_num)
  have := congrArg Char.toNat hab
  rwa [char_ofNat_toNat_small ha2, char_ofNat_toNat_small hb2] at this

/-- Incrementing an absent key appends a fresh count of one. -/
theorem mapIncr_notMem (c : Char) :
    ∀ m : List (Char × Nat), c ∉ m.map Prod.fst → mapIncr c m = m ++ [(c, 1)] := by
  intro m
  induction m with
  | nil =>
    intro _
    rfl
  | cons p rest ih =>
    rcases p with ⟨k, v⟩
    intro h
    simp only [List.map_cons, List.mem_cons] at h
    push_neg at h
    rw [mapIncr, if_neg (fun he => h.1 he.symm), ih h.2]
    rfl

/-- Counting a duplicate-free text on top of a table that has none of its
keys just appends one entry of count one per character, in text order. -/
theorem countFold_fresh :
    ∀ (t : List Char) (m : List (Char × Nat)), t.Nodup →
      (∀ c ∈ t, c ∉ m.map Prod.fst) →
      t.foldl (fun m c => mapIncr c m) m = m ++ t.map (fun c => (c, 1)) := by
  intro t
  induction t with
  | nil =>
    intro m _ _
    simp
  | cons c rest ih =>
    intro m hnd hdis
    rcases List.nodup_cons.mp hnd with ⟨hcrest, hrest⟩
    have hdis2 : ∀ d ∈ rest, d ∉ (m ++ [(c, 1)]).map Prod.fst := by
      intro d hd
      rw [List.map_append, List.mem_append]
      rintro (h2 | h2)
      · exact hdis d (List.mem_cons_of_mem _ hd) h2
      · simp only [List.map_cons, List.map_nil, List.mem_singleton] at h2
        subst h2
        exact hcrest hd
    simp only [List.foldl_cons]
    rw [mapIncr_notMem c m (hdis c (List.mem_cons_self _ _))]
    rw [ih (m ++ [(c, 1)]) hrest hdis2]
    simp

/-- On a duplicate-free text the fresh frequency table is one count of one
per character. -/
theorem freshFrequencies_of_nodup (t : List Char) (h : t.Nodup) :
    freshFrequencies t = t.map (fun c => (c, 1)) := by
  have h2 := countFold_fresh t [] h (by simp)
  simpa [freshFrequencies] using h2

/-- Every node of the fresh queue is a non-null leaf whose stored frequency
is its leaf-weight sum. -/
theorem freshQueue_inv (t : List Char) :
    ∀ n ∈ freshQueue t, n ≠ .null ∧ n.frequency = lsum n := by
  have hQperm : List.Perm (freshQueue t)
      ((freshFrequencies t).map (fun p => NodeP.node p.1 p.2 .null .null)) := by
    have h2 := queue_fold_perm (freshFrequencies t) []
    simpa using h2
  intro n hn
  rcases List.mem_map.mp (hQperm.mem_iff.mp hn) with ⟨p, _, rfl⟩
  constructor
  · intro hc
    cases hc
  · show p.2 = lsum (NodeP.node p.1 p.2 .null .null)
    rw [lsum, leavesOf_leaf]
    simp

/-- On a duplicate-free text the fresh queue carries weight one per
character. -/
theorem qWeights_fresh_replicate (t : List Char) (h : t.Nodup) :
    qWeights (freshQueue t) = List.replicate t.length 1 := by
  have hQperm : List.Perm (freshQueue t)
      ((freshFrequencies t).map (fun p => NodeP.node p.1 p.2 .null .null)) := by
    have h2 := queue_fold_perm (freshFrequencies t) []
    simpa using h2
  have hwq : List.Perm (qWeights (freshQueue t)) ((freshFrequencies t).map Prod.snd) := by
    refine (hQperm.map NodeP.frequency).trans ?_
    rw [List.map_map]
    exact List.Perm.refl _
  rw [freshFrequencies_of_nodup t h] at hwq
  have hsnd : (t.map (fun c => (c, (1 : Nat)))).map Prod.snd
      = List.replicate t.length 1 := by
    rw [List.map_map]
    have h3 : t.map (Prod.snd ∘ fun c => (c, (1 : Nat))) = t.map (fun _ => 1) := rfl
    rw [h3, List.map_const' t 1]
  rw [hsnd] at hwq
  refine List.eq_replicate_iff.mpr ⟨?_, ?_⟩
  · have h4 := hwq.length_eq
    simpa using h4
  · intro b hb
    exact List.eq_of_mem_replicate (hwq.mem_iff.mp hb)

/-- Inserting a weight at least `y` walks past a block of copies of `y`. -/
theorem wIns_replicate_skip (x y : Nat) (hxy : ¬ x < y) :
    ∀ (n : Nat) (rest : List Nat),
      wIns x (List.replicate n y ++ rest) = List.replicate n y ++ wIns x rest := by
  intro n
  induction n with
  | zero =>
    intro rest
    simp
  | succ n ih =>
    intro rest
    simp only [List.replicate_succ, List.cons_append, wIns, if_neg hxy,
      List.append_eq, ih]

/-- Inserting a weight into a block of its own copies appends it. -/
theorem wIns_replicate_self (x : Nat) :
    ∀ n : Nat, wIns x (List.replicate n x) = List.replicate (n + 1) x := by
  intro n
  induction n with
  | zero => rfl
  | succ n ih =>
    rw [List.replicate_succ]
    simp only [wIns, if_neg (Nat.lt_irrefl x), ih]
    simp [List.replicate_succ]

/-- Unfolding the greedy merge cost on a queue of at least two weights. -/
theorem wcost_cons_cons (x y : Nat) (rest : List Nat) :
    wcost (x :: y :: rest) = x + y + wcost (wIns (x + y) rest) := by
  simp [wcost]

/-- Greedy merge cost of an even block of weight `w` followed by a block of
weight `2 * w`: the first block is consumed pairwise, each pair costing
`2 * w` and joining the second block. -/
theorem wcost_two_block :
    ∀ (a b w : Nat),
      wcost (List.replicate (2 * a) w ++ List.replicate b (2 * w))
        = 2 * a * w + wcost (List.replicate (a + b) (2 * w)) := by
  intro a
  induction a with
  | zero =>
    intro b w
    simp
  | succ a ih =>
    intro b w
    have h2 : 2 * (a + 1) = 2 * a + 1 + 1 := by ring
    rw [h2, List.replicate_succ, List.replicate_succ, List.cons_append,
      List.cons_append, wcost_cons_cons]
    have hww : w + w = 2 * w := by ring
    rw [hww, wIns_replicate_skip (2 * w) w (by omega), wIns_replicate_self,
      ih (b + 1) w]
    have h3 : a + (b + 1) = a + 1 + b := by ring
    rw [h3]
    ring

/-- Greedy merge cost of `2 ^ k` equal weights `w`: every weight is merged
exactly `k` times, for a total of `k * 2 ^ k * w`. -/
theorem wcost_replicate_two_pow :
    ∀ (k w : Nat), wcost (List.replicate (2 ^ k) w) = k * 2 ^ k * w := by
  intro k
  induction k with
  | zero =>
    intro w
    show wcost [w] = 0 * 2 ^ 0 * w
    simp [wcost]
  | succ k ih =>
    intro w
    have h1 : 2 ^ (k + 1) = 2 * 2 ^ k := by ring
    have h2 := wcost_two_block (2 ^ k) 0 w
    simp only [List.replicate_zero, List.append_nil] at h2
    rw [h1, h2, Nat.add_zero, ih (2 * w)]
    ring

/-- For a fresh build on at least two symbol classes, the encoded length of
the text equals the greedy merge cost of the initial queue weights (the chain
per-character code lengths → per-symbol weighted depths → tree cost → queue
merge cost, each step an equality). -/
theorem encode_length_eq_wcost (t : List Char) (st : CodecState)
    (h : buildTree t initState = some st) (hQ2 : 2 ≤ (freshQueue t).length) :
    (st.encode t).1.length = wcost (qWeights (freshQueue t)) := by
  obtain ⟨hfreq, ⟨rest, hroot⟩, hcodes⟩ := buildTree_fresh_spec t st h
  have hnodupF : ((freshFrequencies t).map Prod.fst).Nodup :=
    countFold_keys_nodup t [] (by simp)
  have hkeymem : ∀ c ∈ t, c ∈ (freshFrequencies t).map Prod.fst :=
    fun c hc => countFold_keys_mem t [] c hc
  have hQperm : List.Perm (freshQueue t)
      ((freshFrequencies t).map (fun p => NodeP.node p.1 p.2 .null .null)) := by
    have h2 := queue_fold_perm (freshFrequencies t) []
    simpa using h2
  obtain ⟨r0, hr0eq, hr0null, hr0shape, hr0leaves, hr0cost⟩ :=
    mergeLoop_spec ((freshQueue t).length - 1) (freshQueue t) (by omega)
      (freshQueue_inv t)
  have hrooteq : st.root = r0 := by
    rw [hr0eq] at hroot
    injection hroot with h1 _
    exact h1.symm
  rw [← hrooteq] at hr0leaves hr0cost hr0shape
  have hshape : ¬ leafShape st.root := hr0shape hQ2
  have hmapleaves : ((freshFrequencies t).map
        (fun p => NodeP.node p.1 p.2 .null .null)).map leavesOf
      = (freshFrequencies t).map (fun p => [(p.1, p.2)]) := by
    rw [List.map_map]
    apply List.map_congr_left
    intro p _
    exact leavesOf_leaf p.1 p.2
  have hleafperm : List.Perm (leavesOf st.root) (freshFrequencies t) := by
    refine hr0leaves.trans ?_
    refine ((hQperm.map leavesOf).flatten).trans ?_
    rw [hmapleaves, join_singleton_pairs]
  have hnodupRoot : ((leavesOf st.root).map Prod.fst).Nodup :=
    ((hleafperm.map Prod.fst).nodup_iff).mpr hnodupF
  have hall : ∀ c ∈ t, ∃ v, mapFind c st.codes = some v := by
    intro c hc
    obtain ⟨w, hw⟩ := key_to_pair (hkeymem c hc)
    obtain ⟨code, hfind, _⟩ := generateCodes_find st.root [] [] c w hnodupRoot
      (fun _ => hshape) (hleafperm.mem_iff.mpr hw)
    exact ⟨code, by rw [hcodes]; exact hfind⟩
  have hlen1 : (st.encode t).1.length
      = (t.map (fun c => ((mapFind c st.codes).getD []).length)).sum := by
    show (encodeLoop t st.codes []).1.length = _
    rw [encodeLoop_length t st.codes [] hall]
    simp
  have hlen2 : (t.map (fun c => ((mapFind c st.codes).getD []).length)).sum
      = ((freshFrequencies t).map
          (fun p => p.2 * ((mapFind p.1 st.codes).getD []).length)).sum := by
    have h2 := countFold_wsum (fun c => ((mapFind c st.codes).getD []).length) t []
    simpa using h2.symm
  have hdepth : ∀ p ∈ freshFrequencies t,
      p.2 * ((mapFind p.1 st.codes).getD []).length
        = p.2 * cdepth st.root p.1 := by
    intro p hp
    have hp2 : (p.1, p.2) ∈ freshFrequencies t := by simpa using hp
    obtain ⟨code, hfind, hlenc⟩ := generateCodes_find st.root [] [] p.1 p.2 hnodupRoot
      (fun _ => hshape) (hleafperm.mem_iff.mpr hp2)
    rw [hcodes, hfind]
    simp only [Option.getD_some]
    rw [hlenc]
    simp
  have hlen3 : ((freshFrequencies t).map
        (fun p => p.2 * ((mapFind p.1 st.codes).getD []).length)).sum
      = ((freshFrequencies t).map (fun p => p.2 * cdepth st.root p.1)).sum := by
    congr 1
    exact List.map_congr_left hdepth
  have hlen4 : ((freshFrequencies t).map (fun p => p.2 * cdepth st.root p.1)).sum
      = icost st.root := by
    have hpermsum := ((hleafperm.symm).map
      (fun cw : Char × Nat => cw.2 * cdepth st.root cw.1)).sum_eq
    rw [← depth_wsum st.root hnodupRoot]
    exact hpermsum
  have hQcost0 : ((freshQueue t).map icost).sum = 0 := by
    apply List.sum_eq_zero
    intro x hx
    rcases List.mem_map.mp hx with ⟨n, hn, rfl⟩
    rcases List.mem_map.mp (hQperm.mem_iff.mp hn) with ⟨p, _, rfl⟩
    exact icost_leaf p.1 p.2
  rw [hlen1, hlen2, hlen3, hlen4, hr0cost, hQcost0]
  omega

/-- Claim C7, counterexample: equality with the 8-bit fixed-width total is
not confined to one- or two-symbol alphabets.  On the uniform 256-symbol
input the built tree is perfectly balanced, every code has 8 bits, and the
encoded length equals `8 * 256` exactly at an alphabet of 256 distinct
symbols. -/
theorem claim7_counterexample_uniform256 :
    ∃ (t : List Char) (st : CodecState),
      buildTree t initState = some st ∧ 3 ≤ distinctCount t ∧
      (st.encode t).1.length = 8 * t.length := by
  have hlen : text256.length = 256 := by simp [text256]
  have hqw : qWeights (freshQueue text256) = List.replicate 256 1 := by
    rw [show (256 : Nat) = text256.length from hlen.symm]
    exact qWeights_fresh_replicate text256 text256_nodup
  have hQlen : (freshQueue text256).length = 256 := by
    have h1 : (qWeights (freshQueue text256)).length = 256 := by
      rw [hqw]
      simp
    simpa [qWeights] using h1
  obtain ⟨r, hr1, _, _, _, _⟩ :=
    mergeLoop_spec 255 (freshQueue text256) (by omega) (freshQueue_inv text256)
  have hb : buildTree text256 initState
      = some ⟨r, generateCodes r [] [], freshFrequencies text256⟩ := by
    have key : buildTree text256 initState =
        (match mergeLoop (freshQueue text256) with
         | [] => none
         | r2 :: _ => some ⟨r2, generateCodes r2 [] [], freshFrequencies text256⟩) := rfl
    rw [key, hr1]
  refine ⟨text256, ⟨r, generateCodes r [] [], freshFrequencies text256⟩, hb, ?_, ?_⟩
  · show 3 ≤ (freshFrequencies text256).length
    rw [freshFrequencies_of_nodup text256 text256_nodup, List.length_map, hlen]
    omega
  · have henc := encode_length_eq_wcost text256 _ hb (by omega)
    have hwc : wcost (List.replicate 256 1) = 2048 := by
      have h8 := wcost_replicate_two_pow 8 1
      norm_num at h8
      exact h8
    rw [henc, hqw, hwc, hlen]

/-- Witness for the amended Claim C7 at the concrete input `"ab"`. -/
theorem claim7_amended_witness :
    (∀ c ∈ (['a', 'b'] : List Char), c.toNat < 256) ∧
    ((⟨.node (Char.ofNat 0) 2 (.node 'a' 1 .null .null) (.node 'b' 1 .null .null),
        [('a', ['0']), ('b', ['1'])], [('a', 1), ('b', 1)]⟩ : CodecState).encode
          ['a', 'b']).1.length
      ≤ 8 * (['a', 'b'] : List Char).length :=
  ⟨by decide,
   claim7_amended_encoded_length_bound ['a', 'b']
     ⟨.node (Char.ofNat 0) 2 (.node 'a' 1 .null .null) (.node 'b' 1 .null .null),
      [('a', ['0']), ('b', ['1'])], [('a', 1), ('b', 1)]⟩
     (by decide) rfl⟩
